import Mathlib

/-!
Verification of the incremental merge engine and resilient fetch pipeline
of `script.py` (course harvester).  JSON-like Python values are embedded as
the inductive type `JVal`; every function below is a direct translation of
the correspondingly named Python function.  Python `dict`s become
association lists over `String` keys (insertion-ordered, as in CPython);
Python mutation becomes explicit value passing.
-/

set_option maxHeartbeats 1000000

/-- JSON-like Python value: `None`, booleans, integers, strings, lists,
dicts (string-keyed, insertion-ordered association lists). -/
inductive JVal where
  | null : JVal
  | bool (b : Bool) : JVal
  | num (n : Int) : JVal
  | str (s : String) : JVal
  | list (xs : List JVal) : JVal
  | dict (kvs : List (String × JVal)) : JVal

mutual

/-- Structural equality on `JVal` (the nested inductive defeats automatic
derivation, so it is written out). -/
def JVal.beq : JVal → JVal → Bool
  | .null, .null => true
  | .bool a, .bool b => a == b
  | .num a, .num b => a == b
  | .str a, .str b => a == b
  | .list xs, .list ys => JVal.beqL xs ys
  | .dict xs, .dict ys => JVal.beqKV xs ys
  | _, _ => false

/-- Structural equality on lists of `JVal`. -/
def JVal.beqL : List JVal → List JVal → Bool
  | [], [] => true
  | x :: xs, y :: ys => JVal.beq x y && JVal.beqL xs ys
  | _, _ => false

/-- Structural equality on association lists. -/
def JVal.beqKV : List (String × JVal) → List (String × JVal) → Bool
  | [], [] => true
  | (k, v) :: xs, (k', v') :: ys => k == k' && JVal.beq v v' && JVal.beqKV xs ys
  | _, _ => false

end

theorem JVal.sizeOf_lt_of_mem {x : JVal} {xs : List JVal} (h : x ∈ xs) :
    sizeOf x < sizeOf xs := by
  induction xs with
  | nil => cases h
  | cons y ys ih =>
    rcases List.mem_cons.mp h with h | h
    · subst h
      simp only [List.cons.sizeOf_spec]
      omega
    · have := ih h
      simp only [List.cons.sizeOf_spec]
      omega

theorem JVal.sizeOf_lt_of_mem_kv {k : String} {v : JVal}
    {kvs : List (String × JVal)} (h : (k, v) ∈ kvs) : sizeOf v < sizeOf kvs := by
  induction kvs with
  | nil => cases h
  | cons y ys ih =>
    rcases List.mem_cons.mp h with h | h
    · subst h
      simp only [List.cons.sizeOf_spec, Prod.mk.sizeOf_spec]
      omega
    · have := ih h
      simp only [List.cons.sizeOf_spec]
      omega

theorem JVal.beqL_iff_of {xs ys : List JVal}
    (h : ∀ x ∈ xs, ∀ b, (JVal.beq x b = true ↔ x = b)) :
    (JVal.beqL xs ys = true ↔ xs = ys) := by
  induction xs generalizing ys with
  | nil => cases ys <;> simp [JVal.beqL]
  | cons x xs ih =>
    cases ys with
    | nil => simp [JVal.beqL]
    | cons y ys =>
      simp only [JVal.beqL, Bool.and_eq_true, List.cons.injEq]
      rw [h x (by simp) y, ih (fun z hz => h z (by simp [hz]))]

theorem JVal.beqKV_iff_of {xs ys : List (String × JVal)}
    (h : ∀ k v, (k, v) ∈ xs → ∀ b, (JVal.beq v b = true ↔ v = b)) :
    (JVal.beqKV xs ys = true ↔ xs = ys) := by
  induction xs generalizing ys with
  | nil => cases ys <;> simp [JVal.beqKV]
  | cons x xs ih =>
    cases ys with
    | nil => simp [JVal.beqKV]
    | cons y ys =>
      obtain ⟨k, v⟩ := x
      obtain ⟨k', v'⟩ := y
      simp only [JVal.beqKV, Bool.and_eq_true, List.cons.injEq, Prod.mk.injEq,
        beq_iff_eq]
      rw [h k v (by simp) v', ih (fun a b hab c => h a b (by simp [hab]) c)]

theorem JVal.beq_iff_eq_aux :
    ∀ (n : Nat) (a b : JVal), sizeOf a ≤ n → (JVal.beq a b = true ↔ a = b) := by
  intro n
  induction n using Nat.strong_induction_on with
  | _ n ih =>
    intro a b hle
    cases a <;> cases b <;> (try (simp [JVal.beq]; done))
    · next xs ys =>
      simp only [JVal.beq, JVal.list.injEq]
      apply JVal.beqL_iff_of
      intro x hx b
      have h1 := JVal.sizeOf_lt_of_mem hx
      have h2 : 1 + sizeOf xs ≤ n := by simpa using hle
      exact ih (sizeOf x) (by omega) x b (le_refl _)
    · next xs ys =>
      simp only [JVal.beq, JVal.dict.injEq]
      apply JVal.beqKV_iff_of
      intro k v hkv b
      have h1 := JVal.sizeOf_lt_of_mem_kv hkv
      have h2 : 1 + sizeOf xs ≤ n := by simpa using hle
      exact ih (sizeOf v) (by omega) v b (le_refl _)

instance : DecidableEq JVal := fun a b =>
  decidable_of_iff _ (JVal.beq_iff_eq_aux (sizeOf a) a b (le_refl _))

namespace Script

open JVal

/-- Python truthiness (`bool(x)`) on the embedded values. -/
def pyTruthy : JVal → Bool
  | .null => false
  | .bool b => b
  | .num n => n != 0
  | .str s => s != ""
  | .list xs => !xs.isEmpty
  | .dict kvs => !kvs.isEmpty

mutual

/-- Python `repr` on the embedded values (used only through `pyStr` for
f-string interpolation / `str(...)` of ids, which in the data at hand are
numbers or strings). -/
def pyRepr : JVal → String
  | .null => "None"
  | .bool b => if b then "True" else "False"
  | .num n => toString n
  | .str s => "'" ++ s ++ "'"
  | .list xs => "[" ++ String.intercalate ", " (pyReprL xs) ++ "]"
  | .dict kvs =>
      "\x7b" ++ String.intercalate ", " (pyReprKV kvs) ++ "\x7d"

/-- `repr` of the elements of a list. -/
def pyReprL : List JVal → List String
  | [] => []
  | x :: xs => pyRepr x :: pyReprL xs

/-- `repr` of the entries of a dict. -/
def pyReprKV : List (String × JVal) → List String
  | [] => []
  | (k, v) :: kvs => ("'" ++ k ++ "': " ++ pyRepr v) :: pyReprKV kvs

end

/-- Python `str(x)`. -/
def pyStr : JVal → String
  | .str s => s
  | v => pyRepr v

/-- `dict.get(k)` on an association list: first binding wins (Python dicts
have unique keys; our lists coming from Python data satisfy that too). -/
def dictGet : List (String × JVal) → String → Option JVal
  | [], _ => none
  | (k', v) :: rest, k => if k' = k then some v else dictGet rest k

/-- `d[k] = v`: update in place if the key exists, else append (CPython
insertion-order semantics). -/
def dictSet : List (String × JVal) → String → JVal → List (String × JVal)
  | [], k, v => [(k, v)]
  | (k', v') :: rest, k, v =>
      if k' = k then (k, v) :: rest else (k', v') :: dictSet rest k v

/-- `d.get(k)` with Python's `None` default. -/
def getOrNull (ex : List (String × JVal)) (k : String) : JVal :=
  (dictGet ex k).getD .null

/-- `d.get(k, dflt)`. -/
def getD (ex : List (String × JVal)) (k : String) (dflt : JVal) : JVal :=
  (dictGet ex k).getD dflt

/-- `v.get(k)` at the `JVal` level.  On a non-dict Python raises
`AttributeError`; that path is unreachable in the pipeline (all values
`.get` is applied to are dicts) and is totalised to `None` here. -/
def vGet (v : JVal) (k : String) : JVal :=
  match v with
  | .dict kvs => getOrNull kvs k
  | _ => .null

/-- `v.get(k, dflt)` at the `JVal` level (same totalisation). -/
def vGetD (v : JVal) (k : String) (dflt : JVal) : JVal :=
  match v with
  | .dict kvs => getD kvs k dflt
  | _ => dflt

/-- `ensure_list` (script.py:56-61). -/
def ensure_list : JVal → List JVal
  | .list xs => xs
  | .dict kvs => [.dict kvs]
  | _ => []

/-- `is_blank` (script.py:122-123): `x in (None, "", [], {})`. -/
def is_blank (x : JVal) : Bool :=
  x == .null || x == .str "" || x == .list [] || x == .dict []

/-- `merge_scalar_fill_only` (script.py:126-128). -/
def merge_scalar_fill_only (ex : List (String × JVal)) (k : String) (newVal : JVal) :
    List (String × JVal) :=
  if is_blank (getOrNull ex k) && !is_blank newVal then dictSet ex k newVal else ex

mutual

/-- `merge_dict_fill_only` (script.py:131-141), iterating the new dict's
entries in order and threading the (mutated-in-Python) existing dict. -/
def merge_dict_fill_only (ex : List (String × JVal)) :
    List (String × JVal) → List (String × JVal)
  | [] => ex
  | (k, v) :: rest => merge_dict_fill_only (mergeFillKV ex k v) rest

/-- One iteration of the `merge_dict_fill_only` loop body for key `k`,
value `v`. -/
def mergeFillKV (ex : List (String × JVal)) (k : String) (v : JVal) :
    List (String × JVal) :=
  match v with
  | .dict nkvs =>
      match dictGet ex k with
      | some (.dict ekvs) => dictSet ex k (.dict (merge_dict_fill_only ekvs nkvs))
      | _ => dictSet ex k (.dict (merge_dict_fill_only [] nkvs))
  | .list _ =>
      match dictGet ex k with
      | some (.list _) => ex
      | _ => dictSet ex k (.list [])
  | _ => merge_scalar_fill_only ex k v

end

/-- `merge_dict_fill_only` lifted to `JVal`s (both sides dicts in every
reachable call; a non-dict existing side would raise in Python and is
returned unchanged here). -/
def jMergeDictFill (a b : JVal) : JVal :=
  match a, b with
  | .dict akvs, .dict bkvs => .dict (merge_dict_fill_only akvs bkvs)
  | _, _ => a

/-- The usable merge key of a list item, as `merge_list_by_key` computes
it (script.py:151-155, 163-169): a dict whose `key` field is neither
`None` nor `""` yields `str(item_id)`. -/
def sidOf (key : String) : JVal → Option String
  | .dict kvs =>
      let v := getOrNull kvs key
      if v = .null ∨ v = .str "" then none else some (pyStr v)
  | _ => none

/-- Lookup in the `index` mapping (a Python dict keyed by canonical id
strings, valued by positions). -/
def assocGet : List (String × Nat) → String → Option Nat
  | [], _ => none
  | (k', v) :: rest, k => if k' = k then some v else assocGet rest k

/-- `index[sid] = idx` (update or append). -/
def assocSet : List (String × Nat) → String → Nat → List (String × Nat)
  | [], k, v => [(k, v)]
  | (k', v') :: rest, k, v =>
      if k' = k then (k, v) :: rest else (k', v') :: assocSet rest k v

/-- Building the initial index of `merge_list_by_key`
(script.py:150-155): positions start at `i0`, later bindings overwrite
earlier ones. -/
def buildIndexAux (key : String) : List JVal → Nat → List (String × Nat) →
    List (String × Nat)
  | [], _, acc => acc
  | item :: rest, i, acc =>
      buildIndexAux key rest (i + 1)
        (match sidOf key item with
         | some sid => assocSet acc sid i
         | none => acc)

/-- One iteration of the second loop of `merge_list_by_key`
(script.py:157-174), threading the result list and the index.
Membership (`item not in existing_list`) is structural equality, which
agrees with Python `==` on the JSON data at hand. -/
def mergeKeyStep (key : String) (st : List JVal × List (String × Nat)) (item : JVal) :
    List JVal × List (String × Nat) :=
  let cur := st.1
  let idx := st.2
  match item with
  | .dict _ =>
      match sidOf key item with
      | none => if cur.contains item then (cur, idx) else (cur ++ [item], idx)
      | some sid =>
          match assocGet idx sid with
          | some j => (cur.set j (jMergeDictFill (cur.getD j .null) item), idx)
          | none => (cur ++ [item], assocSet idx sid cur.length)
  | _ => if cur.contains item then (cur, idx) else (cur ++ [item], idx)

/-- `merge_list_by_key` (script.py:144-176). -/
def merge_list_by_key (existing newL : JVal) (key : String) : List JVal :=
  let ex := match existing with
            | .list l => l
            | _ => []
  match newL with
  | .list nl => (nl.foldl (mergeKeyStep key) (ex, buildIndexAux key ex 0 [])).1
  | _ => ex

/-- `fingerprint` (script.py:179-188).  Python's ambient `hash` is passed
in as a parameter `h`. -/
def fingerprint (h : JVal → Int) (item : JVal) : String :=
  match item with
  | .dict kvs =>
      let tryKey := fun (k : String) =>
        let v := getOrNull kvs k
        if is_blank v then none else some (k ++ ":" ++ pyStr v)
      match tryKey "id" with
      | some s => s
      | none =>
        match tryKey "notice_id" with
        | some s => s
        | none =>
          match tryKey "_id" with
          | some s => s
          | none =>
            match tryKey "update_id" with
            | some s => s
            | none =>
              let orJ := fun (a b : JVal) => if pyTruthy a then a else b
              let ts := orJ (getOrNull kvs "published_at")
                        (orJ (getOrNull kvs "publishedAt")
                         (orJ (getOrNull kvs "created_at")
                          (orJ (getOrNull kvs "createdAt") (.str ""))))
              let body := orJ (getOrNull kvs "content")
                          (orJ (getOrNull kvs "message")
                           (orJ (getOrNull kvs "description") (.str "")))
              pyStr ts ++ "|" ++ toString (h body)
  | v => pyStr v

/-- Index for `merge_list_by_fingerprint` (script.py:197): dict
comprehension, later items overwrite earlier ones. -/
def buildFpIndexAux (h : JVal → Int) : List JVal → Nat → List (String × Nat) →
    List (String × Nat)
  | [], _, acc => acc
  | item :: rest, i, acc =>
      buildFpIndexAux h rest (i + 1) (assocSet acc (fingerprint h item) i)

/-- One iteration of the `merge_list_by_fingerprint` loop
(script.py:199-206). -/
def mergeFpStep (h : JVal → Int) (st : List JVal × List (String × Nat)) (item : JVal) :
    List JVal × List (String × Nat) :=
  let cur := st.1
  let idx := st.2
  match assocGet idx (fingerprint h item) with
  | some j =>
      match cur.getD j .null, item with
      | .dict _, .dict _ => (cur.set j (jMergeDictFill (cur.getD j .null) item), idx)
      | _, _ => (cur, idx)
  | none => (cur ++ [item], assocSet idx (fingerprint h item) cur.length)

/-- `merge_list_by_fingerprint` (script.py:191-208). -/
def merge_list_by_fingerprint (h : JVal → Int) (existing newL : JVal) : List JVal :=
  let ex := match existing with
            | .list l => l
            | _ => []
  match newL with
  | .list nl => (nl.foldl (mergeFpStep h) (ex, buildFpIndexAux h ex 0 [])).1
  | _ => ex

/-- `len(l.get(k, [])) if isinstance(l.get(k), list) else 0`
(script.py:260-261, 264-265): a missing key defaults to `[]`, so both the
missing and the non-list cases yield `0`. -/
def lenListD (l : List (String × JVal)) (k : String) : Nat :=
  match dictGet l k with
  | some (.list xs) => xs.length
  | _ => 0

/-- Recomputation of the three derived counts on a freshly appended
lesson (script.py:264-266). -/
def recountLesson (l : List (String × JVal)) : List (String × JVal) :=
  let vc := lenListD l "videos"
  let nc := lenListD l "notes"
  dictSet (dictSet (dictSet l "video_count" (.num vc)) "note_count" (.num nc))
    "lesson_count" (.num (vc + nc))

/-- The matched-lesson branch of the lesson loop of `merge_course`
(script.py:254-262): fill-merge, keyed-merge videos and notes, recompute
the three counts. -/
def mergeLessonTarget (target lesson : List (String × JVal)) : List (String × JVal) :=
  let t1 := merge_dict_fill_only target lesson
  let t2 := dictSet t1 "videos"
    (.list (merge_list_by_key (getD t1 "videos" (.list []))
      (getD lesson "videos" (.list [])) "id"))
  let t3 := dictSet t2 "notes"
    (.list (merge_list_by_key (getD t2 "notes" (.list []))
      (getD lesson "notes" (.list [])) "id"))
  let vc := lenListD t3 "videos"
  let t4 := dictSet t3 "video_count" (.num vc)
  let nc := lenListD t4 "notes"
  let t5 := dictSet t4 "note_count" (.num nc)
  dictSet t5 "lesson_count" (.num (vc + nc))

/-- One iteration of the lesson loop of `merge_course`
(script.py:240-269), threading the lesson list and the index. -/
def mergeLessonStep (st : List JVal × List (String × Nat)) (lesson : JVal) :
    List JVal × List (String × Nat) :=
  let cur := st.1
  let idx := st.2
  match lesson with
  | .dict lkvs =>
      match sidOf "lesson_id" lesson with
      | none => if cur.contains lesson then (cur, idx) else (cur ++ [lesson], idx)
      | some lid =>
          match assocGet idx lid with
          | some j =>
              let target := match cur.getD j .null with
                            | .dict tkvs => tkvs
                            | _ => []
              (cur.set j (.dict (mergeLessonTarget target lkvs)), idx)
          | none => (cur ++ [.dict (recountLesson lkvs)], assocSet idx lid cur.length)
  | _ => if cur.contains lesson then (cur, idx) else (cur ++ [lesson], idx)

/-- `(l.get("lesson_count") or 0)` for one lesson dict (script.py:273).
A truthy non-numeric count would make the Python `sum` raise; that case
is unreachable on pipeline data and contributes `0` here. -/
def countOr0 (l : List (String × JVal)) : Int :=
  match (if pyTruthy (getOrNull l "lesson_count") then getOrNull l "lesson_count" else .num 0) with
  | .num n => n
  | _ => 0

/-- The entity-level count expression
`sum((l.get("lesson_count") or 0) for l in lessons if isinstance(l, dict))`
(script.py:272-274 and script.py:416). -/
def lessonsTotal (lessons : List JVal) : Int :=
  lessons.foldl
    (fun acc l => match l with
                  | .dict kvs => acc + countOr0 kvs
                  | _ => acc) 0

/-- `ok = new_course.get("_ok") or {}` (script.py:214). -/
def okDictOf (new : List (String × JVal)) : JVal :=
  if pyTruthy (getOrNull new "_ok") then getOrNull new "_ok" else .dict []

/-- `merge_course` (script.py:211-280).  `h` is Python's ambient `hash`,
reaching this function through `fingerprint`.  A non-dict `_ok` value
would raise in Python (`.get` on a non-dict) and is totalised to no flag
by `vGet`. -/
def merge_course (ex new : List (String × JVal)) (h : JVal → Int) :
    List (String × JVal) :=
  let ex1 := merge_dict_fill_only ex (new.filter (fun p => p.1 != "_ok"))
  let ok := okDictOf new
  let classroom_ok := pyTruthy (vGet ok "classroom")
  let updates_ok := pyTruthy (vGet ok "updates")
  let ex2 :=
    if classroom_ok then
      let ex2a := dictSet ex1 "classroom"
        (.list (merge_list_by_key (getD ex1 "classroom" (.list []))
          (getD new "classroom" (.list [])) "id"))
      let existing_lessons := match getD ex2a "lessons" (.list []) with
                              | .list l => l
                              | _ => []
      let new_lessons := match getD new "lessons" (.list []) with
                         | .list l => l
                         | _ => []
      let merged := (new_lessons.foldl mergeLessonStep
        (existing_lessons, buildIndexAux "lesson_id" existing_lessons 0 [])).1
      let ex2b := dictSet ex2a "lessons" (.list merged)
      dictSet ex2b "lesson_count" (.num (lessonsTotal merged))
    else ex1
  if updates_ok then
    dictSet ex2 "announcements"
      (.list (merge_list_by_fingerprint h (getD ex2 "announcements" (.list []))
        (getD new "announcements" (.list []))))
  else ex2

/-- The search loop of `upsert_course` (script.py:285-289): replace the
first record whose canonical id matches, else append the snapshot.
A non-dict record would raise in Python on `.items()`; totalised to
left-unchanged. -/
def upsertGo (cid : String) (new : List (String × JVal)) (h : JVal → Int) :
    List JVal → List JVal
  | [] => [.dict new]
  | c :: rest =>
      if pyStr (vGet c "course_id") = cid then
        (match c with
         | .dict ckvs => .dict (merge_course ckvs new h)
         | _ => c) :: rest
      else c :: upsertGo cid new h rest

/-- `upsert_course` (script.py:283-289). -/
def upsert_course (master : List JVal) (course_id : JVal)
    (new : List (String × JVal)) (h : JVal → Int) : List JVal :=
  upsertGo (pyStr course_id) new h master

/-- `any_ok_anywhere` (script.py:466-469): does any snapshot carry a
truthy classroom or updates flag? -/
def any_ok_anywhere (results : List JVal) : Bool :=
  results.any fun r =>
    pyTruthy (vGet (vGetD r "_ok" (.dict [])) "classroom") ||
    pyTruthy (vGet (vGetD r "_ok" (.dict [])) "updates")

/-- The `_ok` cleanup before saving (script.py:483-485):
`c.pop("_ok", None)` on every dict record. -/
def strip_ok (master : List JVal) : List JVal :=
  master.map fun c =>
    match c with
    | .dict kvs => .dict (kvs.filter (fun p => p.1 != "_ok"))
    | v => v

/-- The tail of `main` after the concurrent fetches have been collected
(script.py:465-488): `none` models the total-outage exit (`SKIP_PUSH`
written, `SystemExit(0)`, store file untouched); `some m` models saving
the merged collection `m` to the store. -/
def pipeline_finish (master results : List JVal) (h : JVal → Int) :
    Option (List JVal) :=
  if any_ok_anywhere results then
    some (strip_ok (results.foldl
      (fun m r =>
        if pyTruthy (vGet r "course_id") then
          match r with
          | .dict rkvs => upsert_course m (vGet r "course_id") rkvs h
          | _ => m
        else m)
      master))
  else none

/-- The pure part of `load_master_json` (script.py:99-112) applied to
already-parsed JSON: reject non-lists, canonicalise every dict record's
non-`None` `course_id` to a string. -/
def canonicalize_master (data : JVal) : Except String (List JVal) :=
  match data with
  | .list cs =>
      .ok (cs.map fun c =>
        match c with
        | .dict kvs =>
            if getOrNull kvs "course_id" = .null then .dict kvs
            else .dict (dictSet kvs "course_id" (.str (pyStr (getOrNull kvs "course_id"))))
        | v => v)
  | _ => .error "master_courses.json is not a list"

/-- The outcome of one HTTP attempt inside `safe_get`: a transport
exception, or a response with a status code and (for 200) an optionally
parseable JSON body (`none` = body fails to parse). -/
inductive Outcome where
  | exc : Outcome
  | resp (code : Nat) (body : Option JVal) : Outcome

/-- Is the attempt outcome transient (script.py:76, 91): a 5xx status in
`(500, 502, 503, 504)` or a `requests.RequestException`? -/
def transientO : Outcome → Bool
  | .exc => true
  | .resp c _ => c == 500 || c == 502 || c == 503 || c == 504

/-- The value `safe_get` returns for the attempt it stops on
(script.py:81-89, 96). -/
def respond : Outcome → Option JVal × Bool
  | .exc => (none, false)
  | .resp c b =>
      if c == 200 then
        match b with
        | some j => (some j, true)
        | none => (none, false)
      else (none, false)

/-- `safe_get` (script.py:64-96) as a function of the sequence of attempt
outcomes, one list entry per loop iteration (so the list length is
`MAX_RETRIES`).  `none` models falling off the end of the `for` loop with
no `return` — the implicit Python `None`, which is *not* a pair and makes
the caller's tuple unpacking raise.  That happens exactly when the list is
empty, i.e. `MAX_RETRIES < 1`. -/
def safe_get : List Outcome → Option (Option JVal × Bool)
  | [] => none
  | [o] => some (if transientO o then (none, false) else respond o)
  | o :: o2 :: rest => if transientO o then safe_get (o2 :: rest) else some (respond o)

/-- The attempt `safe_get` stops on: the first non-transient outcome, or
the final attempt when every outcome is transient. -/
def firstDecisive : List Outcome → Option Outcome
  | [] => none
  | [o] => some o
  | o :: o2 :: rest => if transientO o then firstDecisive (o2 :: rest) else some o

/-- The network environment of one `fetch_course_details` call: the
`safe_get` results of the classroom endpoint, the per-id lesson and video
endpoints (keyed by the `str(...)` of the id interpolated into the URL),
and the updates endpoint. -/
structure FetchEnv where
  classroomResp : Option JVal × Bool
  lessonResp : String → Option JVal × Bool
  videoResp : String → Option JVal × Bool
  updatesResp : Option JVal × Bool

/-- `a or b` on Python values. -/
def orJ (a b : JVal) : JVal := if pyTruthy a then a else b

/-- One `videos_out` entry (script.py:353-374). -/
def buildVideo (env : FetchEnv) (v : List (String × JVal)) : List (String × JVal) :=
  let vid := getOrNull v "id"
  let r := if pyTruthy vid then env.videoResp (pyStr vid) else (none, false)
  let vd_ok := r.2
  let vd := match r.1 with
            | some (.dict kvs) => kvs
            | _ => []
  [("id", if vid = .null then .null else .str (pyStr vid)),
   ("name", getD v "name" (.str "")),
   ("published_at", getD v "published_at" (.str "")),
   ("thumb", getD v "thumb" (.str "")),
   ("type", getD v "type" (.str "")),
   ("pdfs", if getOrNull v "pdfs" = .null then .list [] else getOrNull v "pdfs"),
   ("m3u", if vd_ok then getD vd "video_url" (.str "") else .str ""),
   ("yt", if vd_ok then getD vd "hd_video_url" (.str "") else .str ""),
   ("video_pdfs", if vd_ok then getD vd "pdfs" .null else .null)]

/-- One `notes_out` entry (script.py:377-397). -/
def buildNote (env : FetchEnv) (n : List (String × JVal)) : List (String × JVal) :=
  let nid := getOrNull n "id"
  let r := if pyTruthy nid then env.videoResp (pyStr nid) else (none, false)
  let nd_ok := r.2
  let nd := match r.1 with
            | some (.dict kvs) => kvs
            | _ => []
  [("id", if nid = .null then .null else .str (pyStr nid)),
   ("name", getD n "name" (.str "")),
   ("published_at", getD n "published_at" (.str "")),
   ("thumb", getD n "thumb" (.str "")),
   ("type", getD n "type" (.str "pdf")),
   ("resolved_url", if nd_ok then getD nd "video_url" (.str "") else .str ""),
   ("yt", if nd_ok then getD nd "hd_video_url" (.str "") else .str ""),
   ("pdfs", if nd_ok then getD nd "pdfs" .null else .null)]

/-- The `videos_out` list of one lesson (script.py:353-374): every dict
entry of the payload's `videos` list, resolved through `buildVideo`. -/
def lessonVideosOf (env : FetchEnv) (lkvs : List (String × JVal)) : List JVal :=
  (ensure_list (getOrNull lkvs "videos")).filterMap
    fun v => match v with
             | .dict vkvs => some (JVal.dict (buildVideo env vkvs))
             | _ => none

/-- The `notes_out` list of one lesson (script.py:377-397). -/
def lessonNotesOf (env : FetchEnv) (lkvs : List (String × JVal)) : List JVal :=
  (ensure_list (getOrNull lkvs "notes")).filterMap
    fun n => match n with
             | .dict nkvs => some (JVal.dict (buildNote env nkvs))
             | _ => none

/-- The lesson record appended to `out["lessons"]` (script.py:399-408),
for classroom entry `ckvs` and lesson payload `lkvs`. -/
def buildLessonRecord (env : FetchEnv) (ckvs lkvs : List (String × JVal)) :
    List (String × JVal) :=
  [("lesson_id",
     if getOrNull lkvs "id" = .null then .str (pyStr (getOrNull ckvs "id"))
     else .str (pyStr (getOrNull lkvs "id"))),
   ("lesson_name", orJ (getD lkvs "name" (.str "")) (getD ckvs "name" (.str ""))),
   ("teacher", getD lkvs "teacher" (.dict [])),
   ("video_count", .num (lessonVideosOf env lkvs).length),
   ("note_count", .num (lessonNotesOf env lkvs).length),
   ("lesson_count", .num ((lessonVideosOf env lkvs).length + (lessonNotesOf env lkvs).length)),
   ("videos", .list (lessonVideosOf env lkvs)),
   ("notes", .list (lessonNotesOf env lkvs))]

/-- The per-classroom-entry body of the lesson-building loop
(script.py:341-408): zero lessons on skip (`continue`), one lesson
otherwise. -/
def buildLesson (env : FetchEnv) (cls : JVal) : List JVal :=
  match cls with
  | .dict ckvs =>
      let lesson_id := getOrNull ckvs "id"
      if !pyTruthy lesson_id then []
      else
        match env.lessonResp (pyStr lesson_id) with
        | (some (.dict lkvs), true) => [.dict (buildLessonRecord env ckvs lkvs)]
        | _ => []
  | _ => []

/-- `out["_ok"][k] = bool(b)` (script.py:335, 412). -/
def setOkFlag (out : List (String × JVal)) (k : String) (b : Bool) :
    List (String × JVal) :=
  match dictGet out "_ok" with
  | some (.dict okkvs) => dictSet out "_ok" (.dict (dictSet okkvs k (.bool b)))
  | _ => out

/-- The snapshot skeleton `out` of `fetch_course_details`
(script.py:314-331). -/
def fetchOut0 (course : JVal) (rank : Int) (fetchedAt : String) :
    List (String × JVal) :=
  [("ranking", .num rank),
   ("course_id",
     if vGet course "id" = .null then .null else .str (pyStr (vGet course "id"))),
   ("course_name", orJ (vGet course "title") (.str "")),
   ("category_id", vGet course "category_id"),
   ("start_at", vGet course "start_at"),
   ("end_at", vGet course "end_at"),
   ("image_large", vGet course "image_large"),
   ("image_thumb", vGet course "image_thumb"),
   ("classroom", .list []),
   ("lessons", .list []),
   ("announcements", .list []),
   ("lesson_count", .num 0),
   ("fetched_at", .str fetchedAt),
   ("_ok", .dict [("classroom", .bool false), ("updates", .bool false)])]

/-- The classroom section of `fetch_course_details` (script.py:337-408):
on a successful dict payload, store the classroom list and build the
lessons; otherwise leave the snapshot as is. -/
def fetchClassroomStage (env : FetchEnv) (out1 : List (String × JVal)) :
    List (String × JVal) :=
  match env.classroomResp.2, env.classroomResp.1 with
  | true, some (.dict cdkvs) =>
      let classroom := ensure_list (getOrNull cdkvs "classroom")
      let outA := dictSet out1 "classroom" (.list classroom)
      dictSet outA "lessons"
        (.list (classroom.foldl (fun acc cls => acc ++ buildLesson env cls) []))
  | _, _ => out1

/-- The updates section of `fetch_course_details` (script.py:411-414). -/
def fetchUpdatesStage (env : FetchEnv) (out3 : List (String × JVal)) :
    List (String × JVal) :=
  if env.updatesResp.2 then
    dictSet out3 "announcements" (.list (ensure_list (env.updatesResp.1.getD .null)))
  else out3

/-- `fetch_course_details` (script.py:309-423) as a pure function of the
network environment; `rank` is the progress rank, `fetchedAt` the
timestamp string.  The `print` calls are observability only and dropped. -/
def fetch_course_details (env : FetchEnv) (course : JVal) (rank : Int)
    (fetchedAt : String) : List (String × JVal) :=
  let out4 := fetchUpdatesStage env
    (setOkFlag
      (fetchClassroomStage env
        (setOkFlag (fetchOut0 course rank fetchedAt) "classroom" env.classroomResp.2))
      "updates" env.updatesResp.2)
  dictSet out4 "lesson_count"
    (.num (lessonsTotal (match getD out4 "lessons" (.list []) with
                         | .list l => l
                         | _ => [])))

/-! ### Basic association-list lemmas -/

theorem dictGet_dictSet_self (ex : List (String × JVal)) (k : String) (v : JVal) :
    dictGet (dictSet ex k v) k = some v := by
  induction ex with
  | nil => simp [dictGet, dictSet]
  | cons p rest ih =>
    obtain ⟨k', v'⟩ := p
    by_cases hk : k' = k
    · subst hk
      simp [dictGet, dictSet]
    · simp [dictGet, dictSet, hk, ih]

theorem dictGet_dictSet_ne (ex : List (String × JVal)) {k' k : String} (v : JVal)
    (h : k' ≠ k) : dictGet (dictSet ex k' v) k = dictGet ex k := by
  induction ex with
  | nil => simp [dictGet, dictSet, h]
  | cons p rest ih =>
    obtain ⟨k₀, v₀⟩ := p
    by_cases hk : k₀ = k'
    · subst hk
      simp [dictGet, dictSet, h]
    · simp only [dictSet, if_neg hk, dictGet]
      by_cases hk2 : k₀ = k
      · simp [hk2]
      · simp [hk2, ih]

theorem dictSet_get_self {ex : List (String × JVal)} {k : String} {v : JVal}
    (h : dictGet ex k = some v) : dictSet ex k v = ex := by
  induction ex with
  | nil => simp [dictGet] at h
  | cons p rest ih =>
    obtain ⟨k₀, v₀⟩ := p
    by_cases hk : k₀ = k
    · subst hk
      simp [dictGet] at h
      simp [dictSet, h]
    · simp [dictGet, hk] at h
      simp [dictSet, hk, ih h]

theorem assocGet_assocSet_self (acc : List (String × Nat)) (k : String) (v : Nat) :
    assocGet (assocSet acc k v) k = some v := by
  induction acc with
  | nil => simp [assocGet, assocSet]
  | cons p rest ih =>
    obtain ⟨k', v'⟩ := p
    by_cases hk : k' = k
    · subst hk
      simp [assocGet, assocSet]
    · simp [assocGet, assocSet, hk, ih]

theorem assocGet_assocSet_ne (acc : List (String × Nat)) {k' k : String} (v : Nat)
    (h : k' ≠ k) : assocGet (assocSet acc k' v) k = assocGet acc k := by
  induction acc with
  | nil => simp [assocGet, assocSet, h]
  | cons p rest ih =>
    obtain ⟨k₀, v₀⟩ := p
    by_cases hk : k₀ = k'
    · subst hk
      simp [assocGet, assocSet, h]
    · simp only [assocSet, if_neg hk, assocGet]
      by_cases hk2 : k₀ = k
      · simp [hk2]
      · simp [hk2, ih]

/-- `v` is a Python scalar in the sense of `merge_dict_fill_only`'s
branching: neither a dict nor a list. -/
def isScalarJ : JVal → Bool
  | .dict _ => false
  | .list _ => false
  | _ => true

theorem mergeFillKV_get_ne (ex : List (String × JVal)) {k' k : String} (v : JVal)
    (h : k' ≠ k) : dictGet (mergeFillKV ex k' v) k = dictGet ex k := by
  cases v with
  | dict nkvs =>
    simp only [mergeFillKV]
    cases hg : dictGet ex k' with
    | none => rw [dictGet_dictSet_ne _ _ h]
    | some w =>
      cases w <;> simp only [] <;> rw [dictGet_dictSet_ne _ _ h]
  | list xs =>
    simp only [mergeFillKV]
    cases hg : dictGet ex k' with
    | none => rw [dictGet_dictSet_ne _ _ h]
    | some w =>
      cases w <;> first
        | rfl
        | rw [dictGet_dictSet_ne _ _ h]
  | null =>
    simp only [mergeFillKV, merge_scalar_fill_only]
    split
    · rw [dictGet_dictSet_ne _ _ h]
    · rfl
  | bool b =>
    simp only [mergeFillKV, merge_scalar_fill_only]
    split
    · rw [dictGet_dictSet_ne _ _ h]
    · rfl
  | num n =>
    simp only [mergeFillKV, merge_scalar_fill_only]
    split
    · rw [dictGet_dictSet_ne _ _ h]
    · rfl
  | str s =>
    simp only [mergeFillKV, merge_scalar_fill_only]
    split
    · rw [dictGet_dictSet_ne _ _ h]
    · rfl

/-- The fill merge leaves a list-valued field exactly unchanged when
every value the new side carries for that key is a list. -/
theorem mergeFill_get_list {k : String} {xs : List JVal} :
    ∀ (nkvs ex : List (String × JVal)), dictGet ex k = some (.list xs) →
    (∀ v, (k, v) ∈ nkvs → ∃ ys, v = JVal.list ys) →
    dictGet (merge_dict_fill_only ex nkvs) k = some (.list xs) := by
  intro nkvs
  induction nkvs with
  | nil =>
    intro ex hg _
    simpa [merge_dict_fill_only] using hg
  | cons p rest ih =>
    intro ex hg hall
    obtain ⟨k', v⟩ := p
    show dictGet (merge_dict_fill_only (mergeFillKV ex k' v) rest) k = _
    by_cases hk : k' = k
    · subst hk
      obtain ⟨ys, rfl⟩ := hall v (by simp)
      have hstep : mergeFillKV ex k' (.list ys) = ex := by
        simp only [mergeFillKV]
        rw [hg]
      rw [hstep]
      exact ih ex hg (fun v hv => hall v (by simp [hv]))
    · have hstep := mergeFillKV_get_ne ex v hk
      exact ih _ (hstep.trans hg) (fun v hv => hall v (by simp [hv]))

/-- The fill merge never overwrites a non-blank scalar field, provided
the new side carries only scalars for that key (as every snapshot does
for its scalar fields). -/
theorem mergeFill_get_scalar {k : String} {v0 : JVal} :
    ∀ (nkvs ex : List (String × JVal)), dictGet ex k = some v0 →
    is_blank v0 = false →
    (∀ v, (k, v) ∈ nkvs → isScalarJ v = true) →
    dictGet (merge_dict_fill_only ex nkvs) k = some v0 := by
  intro nkvs
  induction nkvs with
  | nil =>
    intro ex hg _ _
    simpa [merge_dict_fill_only] using hg
  | cons p rest ih =>
    intro ex hg hnb hall
    obtain ⟨k', v⟩ := p
    show dictGet (merge_dict_fill_only (mergeFillKV ex k' v) rest) k = _
    by_cases hk : k' = k
    · subst hk
      have hsc := hall v (by simp)
      have hstep : mergeFillKV ex k' v = ex := by
        cases v with
        | dict nkvs => simp [isScalarJ] at hsc
        | list xs => simp [isScalarJ] at hsc
        | null => simp [mergeFillKV, merge_scalar_fill_only, getOrNull, hg, hnb]
        | bool b => simp [mergeFillKV, merge_scalar_fill_only, getOrNull, hg, hnb]
        | num n => simp [mergeFillKV, merge_scalar_fill_only, getOrNull, hg, hnb]
        | str s => simp [mergeFillKV, merge_scalar_fill_only, getOrNull, hg, hnb]
      rw [hstep]
      exact ih ex hg hnb (fun v hv => hall v (by simp [hv]))
    · have hstep := mergeFillKV_get_ne ex v hk
      exact ih _ (hstep.trans hg) hnb (fun v hv => hall v (by simp [hv]))

/-! ### C3: the fill-only scalar merge -/

/-- C3.  For every existing mapping, field name, existing value `e` and
new value `n`, `merge_scalar_fill_only` stores `n` exactly when `e` is
blank and `n` is not, otherwise keeps `e`; and no other field is
touched, so each field is decided independently. -/
theorem merge_scalar_fill_only_spec (ex : List (String × JVal)) (k : String)
    (e n : JVal) (he : dictGet ex k = some e) :
    dictGet (merge_scalar_fill_only ex k n) k =
      some (if is_blank e && !is_blank n then n else e) ∧
    ∀ k', k' ≠ k → dictGet (merge_scalar_fill_only ex k n) k' = dictGet ex k' := by
  constructor
  · simp only [merge_scalar_fill_only, getOrNull, he, Option.getD_some]
    by_cases hb : (is_blank e && !is_blank n) = true
    · rw [if_pos hb, if_pos hb, dictGet_dictSet_self]
    · rw [if_neg hb, if_neg hb, he]
  · intro k' hk
    simp only [merge_scalar_fill_only, getOrNull, he, Option.getD_some]
    by_cases hb : (is_blank e && !is_blank n) = true
    · rw [if_pos hb, dictGet_dictSet_ne _ _ (fun hh => hk hh.symm)]
    · rw [if_neg hb]

/-- Witness for C3 at concrete inputs: a blank existing value is filled,
a non-blank one is kept, and the neighbouring field is untouched. -/
theorem merge_scalar_fill_only_spec_witness :
    dictGet (merge_scalar_fill_only [("a", .str ""), ("b", .num 2)] "a" (.num 7)) "a" =
      some (if is_blank (.str "") && !is_blank (.num 7) then .num 7 else .str "") ∧
    dictGet (merge_scalar_fill_only [("a", .str ""), ("b", .num 2)] "a" (.num 7)) "b" =
      dictGet [("a", .str ""), ("b", .num 2)] "b" := by
  have h := merge_scalar_fill_only_spec [("a", .str ""), ("b", .num 2)] "a"
    (.str "") (.num 7) (by decide)
  exact ⟨h.1, h.2 "b" (by decide)⟩

/-! ### C8: the blankness test -/

/-- C8.  `is_blank` classifies exactly `None`, `""`, `[]` and `{}` as
blank; in particular `0` and `False` are non-blank, so a persisted `0`
or `False` is never overwritten by the fill-only merge, and a fetched
`0` or `False` fills a blank field. -/
theorem is_blank_spec :
    (∀ v : JVal, is_blank v = true ↔
      (v = .null ∨ v = .str "" ∨ v = .list [] ∨ v = .dict [])) ∧
    is_blank (.num 0) = false ∧ is_blank (.bool false) = false ∧
    (∀ (ex : List (String × JVal)) (k : String) (n : JVal),
      (dictGet ex k = some (.num 0) ∨ dictGet ex k = some (.bool false)) →
      merge_scalar_fill_only ex k n = ex) ∧
    (∀ (ex : List (String × JVal)) (k : String) (e : JVal),
      dictGet ex k = some e → is_blank e = true →
      dictGet (merge_scalar_fill_only ex k (.num 0)) k = some (.num 0) ∧
      dictGet (merge_scalar_fill_only ex k (.bool false)) k = some (.bool false)) := by
    refine ⟨?_, by decide, by decide, ?_, ?_⟩
    · intro v
      simp only [is_blank, Bool.or_eq_true, beq_iff_eq]
      tauto
    · intro ex k n hg
      rcases hg with hg | hg <;>
        simp [merge_scalar_fill_only, getOrNull, hg, is_blank]
    · intro ex k e hg hb
      constructor <;>
        · simp only [merge_scalar_fill_only, getOrNull, hg, Option.getD_some, hb]
          rw [if_pos (by simp [is_blank]), dictGet_dictSet_self]

/-- Witness for C8 at concrete inputs: a stored `0` is kept against an
incoming string, and an incoming `0` fills a blank field. -/
theorem is_blank_spec_witness :
    merge_scalar_fill_only [("x", .num 0)] "x" (.str "y") = [("x", .num 0)] ∧
    dictGet (merge_scalar_fill_only [("x", .null)] "x" (.num 0)) "x" = some (.num 0) := by
  refine ⟨is_blank_spec.2.2.2.1 [("x", .num 0)] "x" (.str "y") (Or.inl (by decide)), ?_⟩
  exact (is_blank_spec.2.2.2.2 [("x", .null)] "x" .null (by decide) (by decide)).1

/-! ### C7: safe_get -/

theorem respond_cases (o : Outcome) :
    (respond o = (none, false) ∨ ∃ j, respond o = (some j, true)) ∧
    (∀ j, respond o = (some j, true) ↔ o = .resp 200 (some j)) := by
  cases o with
  | exc =>
    refine ⟨Or.inl rfl, fun j => ?_⟩
    constructor
    · intro hj
      exact absurd hj (by simp [respond])
    · intro hj
      cases hj
  | resp c b =>
    by_cases hc : c = 200
    · subst hc
      cases b with
      | none =>
        refine ⟨Or.inl (by simp [respond]), fun j => ?_⟩
        constructor
        · intro hj
          simp [respond] at hj
        · intro hj
          cases hj
      | some j0 =>
        refine ⟨Or.inr ⟨j0, by simp [respond]⟩, fun j => ?_⟩
        simp [respond]
    · have hr : respond (.resp c b) = (none, false) := by
        simp [respond, hc]
      refine ⟨Or.inl hr, fun j => ?_⟩
      constructor
      · intro hj
        rw [hr] at hj
        exact absurd hj (by simp)
      · intro hj
        injection hj with h1 _
        exact absurd h1 hc

/-- C7.  `safe_get`, as a function of the per-attempt outcomes, always
returns an actual `(payload, ok)` pair — never raises / falls through —
as long as there is at least one attempt (`MAX_RETRIES ≥ 1`, production
default 5); the pair is `(payload, True)` exactly when the attempt it
stops on (the first non-transient one, or the final attempt) is a 200
response with a parseable body, and `(None, False)` in every other
case: retry budget exhausted on transient failures, non-200 non-transient
status, or an unparseable 200 body. -/
theorem safe_get_spec (outs : List Outcome) (hne : outs ≠ []) :
    ∃ r, safe_get outs = some r ∧
      (r = (none, false) ∨ ∃ j, r = (some j, true)) ∧
      (∀ j, r = (some j, true) ↔ firstDecisive outs = some (.resp 200 (some j))) := by
  induction outs with
  | nil => exact absurd rfl hne
  | cons o rest ih =>
    cases rest with
    | nil =>
      by_cases ht : transientO o = true
      · refine ⟨(none, false), by simp [safe_get, ht], Or.inl rfl, fun j => ?_⟩
        constructor
        · intro hj
          exact absurd hj (by simp)
        · intro hj
          simp only [firstDecisive, Option.some.injEq] at hj
          rw [hj] at ht
          exact absurd ht (by simp [transientO])
      · obtain ⟨hshape, hiff⟩ := respond_cases o
        refine ⟨respond o, by simp [safe_get, ht], hshape, fun j => ?_⟩
        rw [hiff j]
        simp [firstDecisive]
    | cons o2 rest2 =>
      by_cases ht : transientO o = true
      · have h1 : safe_get (o :: o2 :: rest2) = safe_get (o2 :: rest2) := by
          simp [safe_get, ht]
        have h2 : firstDecisive (o :: o2 :: rest2) = firstDecisive (o2 :: rest2) := by
          simp [firstDecisive, ht]
        rw [h1, h2]
        exact ih (List.cons_ne_nil _ _)
      · obtain ⟨hshape, hiff⟩ := respond_cases o
        refine ⟨respond o, by simp [safe_get, ht], hshape, fun j => ?_⟩
        rw [hiff j]
        simp [firstDecisive, ht]

/-- Witness for C7 at a concrete outcome sequence: two transient
failures followed by a parseable 200 yield `(payload, True)`. -/
theorem safe_get_spec_witness :
    ∃ r, safe_get [.exc, .resp 503 none, .resp 200 (some (.num 5))] = some r ∧
      (r = (none, false) ∨ ∃ j, r = (some j, true)) ∧
      (∀ j, r = (some j, true) ↔
        firstDecisive [.exc, .resp 503 none, .resp 200 (some (.num 5))] =
          some (.resp 200 (some j))) :=
  safe_get_spec [.exc, .resp 503 none, .resp 200 (some (.num 5))]
    (List.cons_ne_nil _ _)

/-! ### C2: total-outage gating -/

/-- C2.  If every collected snapshot has both section-success flags
false (total outage), the post-collection pipeline returns `none`: it
writes the skip sentinel and exits before any `upsert_course` /
`merge_course` call and before `save_master_json`, so the persisted
store keeps its pre-run contents. -/
theorem pipeline_outage_skips_save (master results : List JVal) (h : JVal → Int)
    (hflags : ∀ r ∈ results,
      pyTruthy (vGet (vGetD r "_ok" (.dict [])) "classroom") = false ∧
      pyTruthy (vGet (vGetD r "_ok" (.dict [])) "updates") = false) :
    pipeline_finish master results h = none := by
  have hany : any_ok_anywhere results = false := by
    rw [any_ok_anywhere, List.any_eq_false]
    intro r hr
    obtain ⟨h1, h2⟩ := hflags r hr
    simp [h1, h2]
  simp [pipeline_finish, hany]

/-- Witness for C2: one all-failed snapshot leaves the pipeline at
`none` (store untouched). -/
theorem pipeline_outage_skips_save_witness :
    pipeline_finish [.dict [("course_id", .str "1")]]
      [.dict [("course_id", .str "5"),
              ("_ok", .dict [("classroom", .bool false), ("updates", .bool false)])]]
      (fun _ => 0) = none := by
  apply pipeline_outage_skips_save
  intro r hr
  rw [List.mem_singleton] at hr
  subst hr
  exact ⟨by decide, by decide⟩

/-! ### C9: fingerprint dedup of non-mapping items -/

/-- Is the value a Python mapping? -/
def isDictJ : JVal → Bool
  | .dict _ => true
  | _ => false

theorem assocGet_buildFpIndexAux_isSome (h : JVal → Int) :
    ∀ (l : List JVal) (i0 : Nat) (acc : List (String × Nat)) (s : String),
    ((∃ a ∈ l, fingerprint h a = s) ∨ (assocGet acc s).isSome = true) →
    (assocGet (buildFpIndexAux h l i0 acc) s).isSome = true := by
  intro l
  induction l with
  | nil =>
    intro i0 acc s hyp
    rcases hyp with ⟨a, ha, _⟩ | hacc
    · cases ha
    · exact hacc
  | cons x xs ih =>
    intro i0 acc s hyp
    show (assocGet (buildFpIndexAux h xs (i0 + 1) (assocSet acc (fingerprint h x) i0)) s).isSome = true
    apply ih
    rcases hyp with ⟨a, ha, hfa⟩ | hacc
    · rcases List.mem_cons.mp ha with rfl | ha'
      · right
        rw [← hfa, assocGet_assocSet_self]
        rfl
      · exact Or.inl ⟨a, ha', hfa⟩
    · right
      by_cases hfx : fingerprint h x = s
      · rw [← hfx, assocGet_assocSet_self]
        rfl
      · rw [assocGet_assocSet_ne _ _ hfx]
        exact hacc

/-- C9.  The fingerprint of a non-mapping item is its Python string
representation, so the fingerprint list merge identifies a new
non-mapping item with any already-present item of equal string form
(e.g. the integer `1` and the string `"1"`) and appends nothing. -/
theorem fingerprint_nondict_dedup (h : JVal → Int) (el : List JVal) (a b : JVal)
    (had : isDictJ a = false) (hbd : isDictJ b = false)
    (ha : a ∈ el) (hs : pyStr a = pyStr b) :
    fingerprint h b = pyStr b ∧
    merge_list_by_fingerprint h (.list el) (.list [b]) = el := by
  have hfpa : fingerprint h a = pyStr a := by
    cases a <;> first
      | rfl
      | simp [isDictJ] at had
  have hfpb : fingerprint h b = pyStr b := by
    cases b <;> first
      | rfl
      | simp [isDictJ] at hbd
  refine ⟨hfpb, ?_⟩
  show (mergeFpStep h (el, buildFpIndexAux h el 0 []) b).1 = el
  have hsome : (assocGet (buildFpIndexAux h el 0 []) (fingerprint h b)).isSome = true := by
    apply assocGet_buildFpIndexAux_isSome
    exact Or.inl ⟨a, ha, by rw [hfpa, hs, hfpb]⟩
  obtain ⟨j, hj⟩ := Option.isSome_iff_exists.mp hsome
  simp only [mergeFpStep, hj]
  cases hcur : List.getD el j .null <;> cases b <;>
    first
      | rfl
      | simp [isDictJ] at hbd

/-- Witness for C9: the integer `1` and the string `"1"` share the
fingerprint `"1"`, so merging `["1"]` into `[1]` appends nothing. -/
theorem fingerprint_nondict_dedup_witness :
    fingerprint (fun _ => 0) (.str "1") = pyStr (.str "1") ∧
    merge_list_by_fingerprint (fun _ => 0) (.list [.num 1]) (.list [.str "1"]) =
      [.num 1] :=
  fingerprint_nondict_dedup (fun _ => 0) [.num 1] (.num 1) (.str "1")
    (by decide) (by decide) (by decide) (by decide)

/-! ### C4: self-merge of the keyed list merge -/

/-- Position of the last item of `l` with canonical key `s` — the
binding that survives in `merge_list_by_key`'s index (later assignments
overwrite earlier ones). -/
def lastSid (key : String) : List JVal → String → Option Nat
  | [], _ => none
  | x :: xs, s =>
      match lastSid key xs s with
      | some j => some (j + 1)
      | none => if sidOf key x = some s then some 0 else none

theorem buildIndexAux_get (key : String) :
    ∀ (l : List JVal) (i0 : Nat) (acc : List (String × Nat)) (s : String),
    assocGet (buildIndexAux key l i0 acc) s =
      match lastSid key l s with
      | some j => some (i0 + j)
      | none => assocGet acc s := by
  intro l
  induction l with
  | nil =>
    intro i0 acc s
    rfl
  | cons x xs ih =>
    intro i0 acc s
    show assocGet (buildIndexAux key xs (i0 + 1)
      (match sidOf key x with
       | some sid => assocSet acc sid i0
       | none => acc)) s = _
    rw [ih]
    cases hxs : lastSid key xs s with
    | some j =>
      simp only [lastSid, hxs]
      congr 1
      omega
    | none =>
      simp only [lastSid, hxs]
      cases hx : sidOf key x with
      | some sid =>
        by_cases hss : sid = s
        · subst hss
          rw [assocGet_assocSet_self, if_pos rfl]
          simp
        · rw [assocGet_assocSet_ne _ _ hss,
            if_neg (fun hc => hss (Option.some.inj hc))]
      | none =>
        rw [if_neg (by simp)]

theorem lastSid_isSome {key : String} {x : JVal} {s : String} :
    ∀ {l : List JVal}, x ∈ l → sidOf key x = some s →
    (lastSid key l s).isSome = true := by
  intro l
  induction l with
  | nil =>
    intro hx _
    cases hx
  | cons y ys ih =>
    intro hx hsid
    rcases List.mem_cons.mp hx with rfl | hx'
    · show (match lastSid key ys s with
            | some j => some (j + 1)
            | none => if sidOf key x = some s then some 0 else none).isSome = true
      cases lastSid key ys s with
      | some j => rfl
      | none =>
        rw [if_pos hsid]
        rfl
    · have := ih hx' hsid
      show (match lastSid key ys s with
            | some j => some (j + 1)
            | none => if sidOf key y = some s then some 0 else none).isSome = true
      cases hys : lastSid key ys s with
      | some j => rfl
      | none =>
        rw [hys] at this
        cases this

theorem lastSid_sound {key : String} {s : String} :
    ∀ {l : List JVal} {j : Nat}, lastSid key l s = some j →
    ∃ hj : j < l.length, sidOf key (l.get ⟨j, hj⟩) = some s := by
  intro l
  induction l with
  | nil =>
    intro j hj
    cases hj
  | cons x xs ih =>
    intro j hj
    rw [show lastSid key (x :: xs) s =
      (match lastSid key xs s with
       | some j => some (j + 1)
       | none => if sidOf key x = some s then some 0 else none) from rfl] at hj
    cases hxs : lastSid key xs s with
    | some j' =>
      rw [hxs] at hj
      obtain ⟨hlt, hsid⟩ := ih hxs
      injection hj with hj
      subst hj
      exact ⟨by simpa using Nat.succ_lt_succ hlt, hsid⟩
    | none =>
      rw [hxs] at hj
      by_cases hx : sidOf key x = some s
      · rw [if_pos hx] at hj
        injection hj with hj
        subst hj
        exact ⟨by simp, hx⟩
      · rw [if_neg hx] at hj
        cases hj

theorem list_set_get_self {α : Type} :
    ∀ (l : List α) (j : Nat) (h : j < l.length), l.set j (l.get ⟨j, h⟩) = l := by
  intro l
  induction l with
  | nil =>
    intro j h
    cases h
  | cons x xs ih =>
    intro j h
    cases j with
    | zero => rfl
    | succ j' =>
      show x :: xs.set j' ((x :: xs).get ⟨j' + 1, h⟩) = x :: xs
      rw [show (x :: xs).get ⟨j' + 1, h⟩ = xs.get ⟨j', by simpa using h⟩ from rfl,
        ih j' (by simpa using h)]

theorem foldl_fixed {α β : Type} {f : β → α → β} {s : β} :
    ∀ {l : List α}, (∀ x ∈ l, f s x = s) → l.foldl f s = s := by
  intro l
  induction l with
  | nil =>
    intro _
    rfl
  | cons x xs ih =>
    intro hfix
    show List.foldl f (f s x) xs = s
    rw [hfix x (by simp)]
    exact ih (fun y hy => hfix y (by simp [hy]))

theorem contains_of_mem {α : Type} [DecidableEq α] {a : α} {l : List α}
    (h : a ∈ l) : l.contains a = true := by
  induction l with
  | nil => cases h
  | cons x xs ih =>
    rcases List.mem_cons.mp h with rfl | h'
    · simp [List.contains]
    · simp only [List.contains, List.elem_cons]
      have : List.elem a xs = true := ih h'
      rw [this]
      cases a == x <;> rfl

mutual

/-- Wellformedness of the JSON data the pipeline handles: every mapping,
at every depth reachable by the structural fill merge, has pairwise
distinct keys (as any mapping parsed from JSON does). -/
def WFD : JVal → Bool
  | .dict kvs => decide ((kvs.map Prod.fst).Nodup) && WFDkv kvs
  | _ => true

/-- `WFD` on all values of an association list. -/
def WFDkv : List (String × JVal) → Bool
  | [] => true
  | (_, v) :: rest => WFD v && WFDkv rest

end

theorem WFDkv_mem : ∀ {kvs : List (String × JVal)}, WFDkv kvs = true →
    ∀ {k : String} {v : JVal}, (k, v) ∈ kvs → WFD v = true := by
  intro kvs
  induction kvs with
  | nil =>
    intro _ k v hm
    cases hm
  | cons p rest ih =>
    intro hwf k v hm
    obtain ⟨k0, v0⟩ := p
    rw [show WFDkv ((k0, v0) :: rest) = (WFD v0 && WFDkv rest) from rfl,
      Bool.and_eq_true] at hwf
    rcases List.mem_cons.mp hm with heq | hm'
    · injection heq with _ hv
      subst hv
      exact hwf.1
    · exact ih hwf.2 hm'

theorem nodup_dictGet_self : ∀ {kvs : List (String × JVal)},
    (kvs.map Prod.fst).Nodup →
    ∀ {k : String} {v : JVal}, (k, v) ∈ kvs → dictGet kvs k = some v := by
  intro kvs
  induction kvs with
  | nil =>
    intro _ k v hm
    cases hm
  | cons p rest ih =>
    intro hnd k v hm
    obtain ⟨k0, v0⟩ := p
    rw [List.map_cons, List.nodup_cons] at hnd
    rcases List.mem_cons.mp hm with heq | hm'
    · injection heq with hk hv
      subst hk
      subst hv
      simp [dictGet]
    · show (if k0 = k then some v0 else dictGet rest k) = some v
      rw [if_neg, ih hnd.2 hm']
      intro hk
      subst hk
      exact hnd.1 (List.mem_map.mpr ⟨(k0, v), hm', rfl⟩)

theorem mdfo_self_aux : ∀ (n : Nat) (d rest : List (String × JVal)),
    sizeOf rest ≤ n →
    (∀ k v, (k, v) ∈ rest → dictGet d k = some v ∧ WFD v = true) →
    merge_dict_fill_only d rest = d := by
  intro n
  induction n using Nat.strong_induction_on with
  | _ n ih =>
    intro d rest hsz hm
    cases rest with
    | nil => rfl
    | cons p rest' =>
      obtain ⟨k, v⟩ := p
      obtain ⟨hg, hwf⟩ := hm k v (by simp)
      have hstep : mergeFillKV d k v = d := by
        cases v with
        | dict nkvs =>
          rw [show WFD (.dict nkvs) = (decide ((nkvs.map Prod.fst).Nodup) && WFDkv nkvs) from rfl,
            Bool.and_eq_true, decide_eq_true_eq] at hwf
          have hself : merge_dict_fill_only nkvs nkvs = nkvs := by
            have hsz' : sizeOf nkvs < n := by
              have : sizeOf ((k, JVal.dict nkvs) :: rest') ≤ n := hsz
              simp only [List.cons.sizeOf_spec, Prod.mk.sizeOf_spec,
                JVal.dict.sizeOf_spec] at this
              omega
            exact ih (sizeOf nkvs) hsz' nkvs nkvs (le_refl _)
              (fun k' v' hm' =>
                ⟨nodup_dictGet_self hwf.1 hm', WFDkv_mem hwf.2 hm'⟩)
          simp only [mergeFillKV, hg, hself]
          exact dictSet_get_self hg
        | list xs => simp only [mergeFillKV, hg]
        | null => simp [mergeFillKV, merge_scalar_fill_only, getOrNull, hg]
        | bool b => simp [mergeFillKV, merge_scalar_fill_only, getOrNull, hg]
        | num m => simp [mergeFillKV, merge_scalar_fill_only, getOrNull, hg]
        | str s => simp [mergeFillKV, merge_scalar_fill_only, getOrNull, hg]
      show merge_dict_fill_only (mergeFillKV d k v) rest' = d
      rw [hstep]
      have hsz' : sizeOf rest' < n := by
        have : sizeOf ((k, v) :: rest') ≤ n := hsz
        simp only [List.cons.sizeOf_spec] at this
        omega
      exact ih (sizeOf rest') hsz' d rest' (le_refl _)
        (fun k' v' hm' => hm k' v' (by simp [hm']))

/-- Fill-merging a wellformed dict into itself is a no-op
(every field is already present and equal, so nothing is blank-filled). -/
theorem merge_dict_fill_only_self {d : List (String × JVal)}
    (h : WFD (.dict d) = true) : merge_dict_fill_only d d = d := by
  rw [show WFD (.dict d) = (decide ((d.map Prod.fst).Nodup) && WFDkv d) from rfl,
    Bool.and_eq_true, decide_eq_true_eq] at h
  exact mdfo_self_aux (sizeOf d) d d (le_refl _)
    (fun k v hm => ⟨nodup_dictGet_self h.1 hm, WFDkv_mem h.2 hm⟩)

/-- C4 counterexample.  Merging a list into itself is *not* always
content-preserving: with two entries sharing the key `"1"`, the earlier
entry's non-blank field is fill-merged into the later (blank) one, so the
self-merge changes the list (and the result still holds two entries with
the same key). -/
theorem merge_list_by_key_self_not_idempotent :
    merge_list_by_key
      (.list [.dict [("id", .str "1"), ("a", .str "x")],
              .dict [("id", .str "1"), ("a", .str "")]])
      (.list [.dict [("id", .str "1"), ("a", .str "x")],
              .dict [("id", .str "1"), ("a", .str "")]]) "id" ≠
      [.dict [("id", .str "1"), ("a", .str "x")],
       .dict [("id", .str "1"), ("a", .str "")]] := by
  decide

/-- C4 as amended.  For a list of wellformed items whose keyed entries
have pairwise distinct canonical keys (as produced by the pipeline
itself), merging the list into itself — once or twice — returns the list
exactly: nothing is appended, deleted or modified. -/
theorem merge_list_by_key_self_ident (L : List JVal) (key : String)
    (hwf : ∀ x ∈ L, WFD x = true)
    (hdist : ∀ i j : Fin L.length, (sidOf key (L.get i)).isSome = true →
      sidOf key (L.get i) = sidOf key (L.get j) → i = j) :
    merge_list_by_key (.list L) (.list L) key = L ∧
    merge_list_by_key (.list (merge_list_by_key (.list L) (.list L) key))
      (.list (merge_list_by_key (.list L) (.list L) key)) key = L := by
  have main : merge_list_by_key (.list L) (.list L) key = L := by
    show (L.foldl (mergeKeyStep key) (L, buildIndexAux key L 0 [])).1 = L
    have hfix : ∀ x ∈ L,
        mergeKeyStep key (L, buildIndexAux key L 0 []) x =
          (L, buildIndexAux key L 0 []) := by
      intro x hx
      have hcont : L.contains x = true := contains_of_mem hx
      cases hxc : x with
      | dict kvs =>
        cases hsid : sidOf key (.dict kvs) with
        | none => simp only [mergeKeyStep, hsid, hxc ▸ hcont, if_pos]
        | some s =>
          obtain ⟨i, hi⟩ := List.mem_iff_get.mp hx
          have hlsome := lastSid_isSome hx (hxc ▸ hsid)
          obtain ⟨j, hlj⟩ := Option.isSome_iff_exists.mp hlsome
          obtain ⟨hjlt, hjsid⟩ := lastSid_sound hlj
          have hidx : assocGet (buildIndexAux key L 0 []) s = some j := by
            rw [buildIndexAux_get, hlj]
            simp
          have hji : (⟨j, hjlt⟩ : Fin L.length) = i := by
            apply hdist
            · rw [hjsid]
              rfl
            · rw [hjsid, hi, hxc, hsid]
          have hgetj : L.get ⟨j, hjlt⟩ = x := by
            rw [hji, hi]
          have hgetd : L.getD j .null = x := by
            rw [List.getD_eq_getElem?_getD, List.getElem?_eq_getElem hjlt]
            simpa [List.get_eq_getElem] using hgetj
          have hmerge : jMergeDictFill x x = x := by
            rw [hxc]
            show JVal.dict (merge_dict_fill_only kvs kvs) = JVal.dict kvs
            rw [merge_dict_fill_only_self (hxc ▸ hwf x hx)]
          simp only [mergeKeyStep, hsid, hidx, hgetd]
          rw [← hxc, hmerge,
            show L.set j x = L by rw [← hgetj]; exact list_set_get_self L j hjlt]
      | null => simp only [mergeKeyStep, hxc ▸ hcont, if_pos]
      | bool b => simp only [mergeKeyStep, hxc ▸ hcont, if_pos]
      | num m => simp only [mergeKeyStep, hxc ▸ hcont, if_pos]
      | str s => simp only [mergeKeyStep, hxc ▸ hcont, if_pos]
      | list xs => simp only [mergeKeyStep, hxc ▸ hcont, if_pos]
    rw [foldl_fixed hfix]
  exact ⟨main, by rw [main]; exact main⟩

/-! ### C1: the classroom section guard -/

/-- Is the value a Python list? -/
def isListJ : JVal → Bool
  | .list _ => true
  | _ => false

theorem isListJ_exists {v : JVal} (h : isListJ v = true) : ∃ ys, v = JVal.list ys := by
  cases v <;> first
    | exact ⟨_, rfl⟩
    | simp [isListJ] at h

theorem dictGet_merge_course_false_flag (ex new : List (String × JVal))
    (h : JVal → Int) (k : String)
    (hco : pyTruthy (vGet (okDictOf new) "classroom") = false)
    (hk : k ≠ "announcements") :
    dictGet (merge_course ex new h) k =
      dictGet (merge_dict_fill_only ex (new.filter (fun p => p.1 != "_ok"))) k := by
  rw [merge_course]
  simp only [hco, Bool.false_eq_true, if_false]
  by_cases hupd : pyTruthy (vGet (okDictOf new) "updates") = true
  · simp only [hupd, if_true]
    exact dictGet_dictSet_ne _ _ (fun hc => hk hc.symm)
  · simp only [Bool.not_eq_true] at hupd
    simp only [hupd, Bool.false_eq_true, if_false]

/-- C1.  On a persisted record (whose `classroom` and `lessons` fields
are lists and whose entity `lesson_count` is present and non-blank, as
every record the pipeline writes is), merging a snapshot whose classroom
success flag is falsy leaves `classroom`, `lessons` (and with them every
per-lesson `video_count` / `note_count` / `lesson_count`) and the
entity-level `lesson_count` exactly unchanged — even when the snapshot
carries present-but-empty `classroom` / `lessons` lists and a zero
count, as failed snapshots do. -/
theorem merge_course_classroom_guard (ex new : List (String × JVal))
    (h : JVal → Int) (okkvs : List (String × JVal)) (cs ls : List JVal) (lc : JVal)
    (hok : dictGet new "_ok" = some (.dict okkvs))
    (hflag : pyTruthy (getOrNull okkvs "classroom") = false)
    (hc : dictGet ex "classroom" = some (.list cs))
    (hl : dictGet ex "lessons" = some (.list ls))
    (hcnt : dictGet ex "lesson_count" = some lc)
    (hcnb : is_blank lc = false)
    (hnc : ∀ p ∈ new, p.1 = "classroom" → isListJ p.2 = true)
    (hnl : ∀ p ∈ new, p.1 = "lessons" → isListJ p.2 = true)
    (hncnt : ∀ p ∈ new, p.1 = "lesson_count" → isScalarJ p.2 = true) :
    dictGet (merge_course ex new h) "classroom" = some (.list cs) ∧
    dictGet (merge_course ex new h) "lessons" = some (.list ls) ∧
    dictGet (merge_course ex new h) "lesson_count" = some lc := by
  have hoknn : getOrNull new "_ok" = .dict okkvs := by
    rw [getOrNull, hok]
    rfl
  have hco : pyTruthy (vGet (okDictOf new) "classroom") = false := by
    rw [okDictOf, hoknn]
    by_cases hne : pyTruthy (JVal.dict okkvs) = true
    · rw [if_pos hne]
      exact hflag
    · simp only [Bool.not_eq_true] at hne
      rw [if_neg (by rw [hne]; exact Bool.false_ne_true)]
      rfl
  have key1 := dictGet_merge_course_false_flag ex new h "classroom" hco (by decide)
  have key2 := dictGet_merge_course_false_flag ex new h "lessons" hco (by decide)
  have key3 := dictGet_merge_course_false_flag ex new h "lesson_count" hco (by decide)
  refine ⟨?_, ?_, ?_⟩
  · rw [key1]
    exact mergeFill_get_list _ ex hc
      (fun v hv => isListJ_exists (hnc _ (List.mem_filter.mp hv).1 rfl))
  · rw [key2]
    exact mergeFill_get_list _ ex hl
      (fun v hv => isListJ_exists (hnl _ (List.mem_filter.mp hv).1 rfl))
  · rw [key3]
    exact mergeFill_get_scalar _ ex hcnt hcnb
      (fun v hv => hncnt _ (List.mem_filter.mp hv).1 rfl)

/-- Witness for C1: a snapshot carrying empty classroom and lessons
lists, a zero count and a falsy classroom flag leaves all three persisted
fields untouched. -/
theorem merge_course_classroom_guard_witness :
    dictGet (merge_course
      [("course_id", .str "5"), ("classroom", .list [.dict [("id", .str "c1")]]),
       ("lessons", .list [.dict [("lesson_id", .str "L1")]]), ("lesson_count", .num 1)]
      [("course_id", .str "5"), ("classroom", .list []), ("lessons", .list []),
       ("lesson_count", .num 0),
       ("_ok", .dict [("classroom", .bool false), ("updates", .bool true)])]
      (fun _ => 0)) "classroom" = some (.list [.dict [("id", .str "c1")]]) ∧
    dictGet (merge_course
      [("course_id", .str "5"), ("classroom", .list [.dict [("id", .str "c1")]]),
       ("lessons", .list [.dict [("lesson_id", .str "L1")]]), ("lesson_count", .num 1)]
      [("course_id", .str "5"), ("classroom", .list []), ("lessons", .list []),
       ("lesson_count", .num 0),
       ("_ok", .dict [("classroom", .bool false), ("updates", .bool true)])]
      (fun _ => 0)) "lessons" = some (.list [.dict [("lesson_id", .str "L1")]]) ∧
    dictGet (merge_course
      [("course_id", .str "5"), ("classroom", .list [.dict [("id", .str "c1")]]),
       ("lessons", .list [.dict [("lesson_id", .str "L1")]]), ("lesson_count", .num 1)]
      [("course_id", .str "5"), ("classroom", .list []), ("lessons", .list []),
       ("lesson_count", .num 0),
       ("_ok", .dict [("classroom", .bool false), ("updates", .bool true)])]
      (fun _ => 0)) "lesson_count" = some (.num 1) :=
  merge_course_classroom_guard _ _ _
    [("classroom", .bool false), ("updates", .bool true)]
    [.dict [("id", .str "c1")]] [.dict [("lesson_id", .str "L1")]] (.num 1)
    (by decide) (by decide) (by decide) (by decide) (by decide) (by decide)
    (by decide) (by decide) (by decide)

/-! ### C6: derived counts -/

/-- The count invariant on one lesson mapping: `video_count` and
`note_count` are the lengths of the `videos` / `notes` lists (0 when
missing or non-list, as the source's recomputation produces) and
`lesson_count` is their sum. -/
def lessonCountInv (l : List (String × JVal)) : Prop :=
  dictGet l "video_count" = some (.num (lenListD l "videos")) ∧
  dictGet l "note_count" = some (.num (lenListD l "notes")) ∧
  dictGet l "lesson_count" = some (.num (lenListD l "videos" + lenListD l "notes"))

/-- The entity-level count as the spec states it: the sum over all dict
lessons of the lengths of their `videos` and `notes` lists. -/
def sumLens (lessons : List JVal) : Int :=
  lessons.foldl
    (fun acc l => match l with
                  | .dict kvs => acc + (lenListD kvs "videos" + lenListD kvs "notes")
                  | _ => acc) 0

theorem countOr0_of_inv {kvs : List (String × JVal)} (h : lessonCountInv kvs) :
    countOr0 kvs = lenListD kvs "videos" + lenListD kvs "notes" := by
  obtain ⟨_, _, h3⟩ := h
  rw [countOr0, getOrNull, h3]
  by_cases hz : ((lenListD kvs "videos" : Int) + lenListD kvs "notes") = 0
  · simp [pyTruthy, hz]
  · simp [pyTruthy, hz]

theorem foldl_congr_mem {α β : Type} {f g : β → α → β} :
    ∀ {l : List α} {acc : β}, (∀ a, ∀ x ∈ l, f a x = g a x) →
    l.foldl f acc = l.foldl g acc := by
  intro l
  induction l with
  | nil =>
    intro acc _
    rfl
  | cons x xs ih =>
    intro acc h
    show List.foldl f (f acc x) xs = List.foldl g (g acc x) xs
    rw [h acc x (by simp)]
    exact ih (fun a y hy => h a y (by simp [hy]))

theorem lessonsTotal_eq_sumLens :
    ∀ {lessons : List JVal},
    (∀ l ∈ lessons, ∀ kvs, l = JVal.dict kvs → lessonCountInv kvs) →
    lessonsTotal lessons = sumLens lessons := by
  intro lessons hinv
  rw [lessonsTotal, sumLens]
  apply foldl_congr_mem
  intro a x hx
  cases x with
  | dict kvs =>
    show a + countOr0 kvs = a + (lenListD kvs "videos" + lenListD kvs "notes")
    rw [countOr0_of_inv (hinv (.dict kvs) hx kvs rfl)]
  | null => rfl
  | bool b => rfl
  | num m => rfl
  | str s => rfl
  | list xs => rfl

theorem lenListD_dictSet_ne (l : List (String × JVal)) {k' k : String} (v : JVal)
    (h : k' ≠ k) : lenListD (dictSet l k' v) k = lenListD l k := by
  rw [lenListD, lenListD, dictGet_dictSet_ne _ _ h]

theorem count_sets_inv (l : List (String × JVal)) (vc nc : Nat)
    (hvc : vc = lenListD l "videos") (hnc : nc = lenListD l "notes") :
    lessonCountInv (dictSet (dictSet (dictSet l "video_count" (.num vc))
      "note_count" (.num nc)) "lesson_count" (.num (vc + nc))) := by
  set A := dictSet l "video_count" (.num vc) with hA
  set B := dictSet A "note_count" (.num nc) with hB
  set C := dictSet B "lesson_count" (.num (vc + nc)) with hC
  have g1 : dictGet C "video_count" = some (.num vc) := by
    rw [hC, dictGet_dictSet_ne _ _ (by decide), hB,
      dictGet_dictSet_ne _ _ (by decide), hA, dictGet_dictSet_self]
  have g2 : dictGet C "note_count" = some (.num nc) := by
    rw [hC, dictGet_dictSet_ne _ _ (by decide), hB, dictGet_dictSet_self]
  have g3 : dictGet C "lesson_count" = some (.num (vc + nc)) := by
    rw [hC, dictGet_dictSet_self]
  have l1 : lenListD C "videos" = vc := by
    rw [hC, lenListD_dictSet_ne _ _ (by decide), hB,
      lenListD_dictSet_ne _ _ (by decide), hA,
      lenListD_dictSet_ne _ _ (by decide), hvc]
  have l2 : lenListD C "notes" = nc := by
    rw [hC, lenListD_dictSet_ne _ _ (by decide), hB,
      lenListD_dictSet_ne _ _ (by decide), hA,
      lenListD_dictSet_ne _ _ (by decide), hnc]
  refine ⟨?_, ?_, ?_⟩
  · rw [g1, l1]
  · rw [g2, l2]
  · rw [g3, l1, l2]

theorem recountLesson_inv (l : List (String × JVal)) :
    lessonCountInv (recountLesson l) := by
  unfold recountLesson
  exact count_sets_inv _ _ _ rfl rfl

theorem mergeLessonTarget_inv (target lesson : List (String × JVal)) :
    lessonCountInv (mergeLessonTarget target lesson) := by
  unfold mergeLessonTarget
  exact count_sets_inv _ _ _ rfl (lenListD_dictSet_ne _ _ (by decide))

theorem mem_of_mem_set {α : Type} :
    ∀ {l : List α} {j : Nat} {y x : α}, x ∈ l.set j y → x = y ∨ x ∈ l := by
  intro l
  induction l with
  | nil =>
    intro j y x hx
    cases hx
  | cons a as ih =>
    intro j y x hx
    cases j with
    | zero =>
      rcases List.mem_cons.mp hx with rfl | hx'
      · exact Or.inl rfl
      · exact Or.inr (List.mem_cons.mpr (Or.inr hx'))
    | succ j' =>
      rcases List.mem_cons.mp hx with rfl | hx'
      · exact Or.inr (List.mem_cons.mpr (Or.inl rfl))
      · rcases ih hx' with h | h
        · exact Or.inl h
        · exact Or.inr (List.mem_cons.mpr (Or.inr h))

theorem mergeLessonStep_inv (st : List JVal × List (String × Nat)) (x : JVal)
    (hcur : ∀ l ∈ st.1, ∀ kvs, l = JVal.dict kvs → lessonCountInv kvs)
    (hxd : isDictJ x = true) (hxs : (sidOf "lesson_id" x).isSome = true) :
    ∀ l ∈ (mergeLessonStep st x).1, ∀ kvs, l = JVal.dict kvs → lessonCountInv kvs := by
  cases x with
  | dict lkvs =>
    cases hsid : sidOf "lesson_id" (.dict lkvs) with
    | none =>
      rw [hsid] at hxs
      cases hxs
    | some lid =>
      cases hidx : assocGet st.2 lid with
      | some j =>
        intro l hl kvs hkvs
        rw [show (mergeLessonStep st (.dict lkvs)).1 =
          st.1.set j (.dict (mergeLessonTarget
            (match st.1.getD j .null with
             | .dict tkvs => tkvs
             | _ => []) lkvs)) by
            rw [mergeLessonStep]
            simp only [hsid, hidx]] at hl
        rcases mem_of_mem_set hl with rfl | hl'
        · injection hkvs with hkvs
          subst hkvs
          exact mergeLessonTarget_inv _ _
        · exact hcur l hl' kvs hkvs
      | none =>
        intro l hl kvs hkvs
        rw [show (mergeLessonStep st (.dict lkvs)).1 =
          st.1 ++ [.dict (recountLesson lkvs)] by
            rw [mergeLessonStep]
            simp only [hsid, hidx]] at hl
        rcases List.mem_append.mp hl with hl' | hl'
        · exact hcur l hl' kvs hkvs
        · rw [List.mem_singleton] at hl'
          subst hl'
          injection hkvs with hkvs
          subst hkvs
          exact recountLesson_inv _
  | null => simp [isDictJ] at hxd
  | bool b => simp [isDictJ] at hxd
  | num m => simp [isDictJ] at hxd
  | str s => simp [isDictJ] at hxd
  | list xs => simp [isDictJ] at hxd

theorem lessonFold_inv :
    ∀ (nls : List JVal) (st : List JVal × List (String × Nat)),
    (∀ x ∈ nls, isDictJ x = true ∧ (sidOf "lesson_id" x).isSome = true) →
    (∀ l ∈ st.1, ∀ kvs, l = JVal.dict kvs → lessonCountInv kvs) →
    ∀ l ∈ (nls.foldl mergeLessonStep st).1, ∀ kvs, l = JVal.dict kvs →
      lessonCountInv kvs := by
  intro nls
  induction nls with
  | nil =>
    intro st _ hcur
    exact hcur
  | cons x rest ih =>
    intro st hall hcur
    show ∀ l ∈ (rest.foldl mergeLessonStep (mergeLessonStep st x)).1, _
    exact ih _ (fun y hy => hall y (by simp [hy]))
      (mergeLessonStep_inv st x hcur (hall x (by simp)).1 (hall x (by simp)).2)

theorem mem_foldl_append {α β : Type} (g : α → List β) :
    ∀ (l : List α) (acc : List β) (x : β),
    x ∈ l.foldl (fun a c => a ++ g c) acc → x ∈ acc ∨ ∃ c ∈ l, x ∈ g c := by
  intro l
  induction l with
  | nil =>
    intro acc x hx
    exact Or.inl hx
  | cons c cs ih =>
    intro acc x hx
    rcases ih (acc ++ g c) x hx with h | ⟨c', hc', hx'⟩
    · rcases List.mem_append.mp h with h' | h'
      · exact Or.inl h'
      · exact Or.inr ⟨c, by simp, h'⟩
    · exact Or.inr ⟨c', by simp [hc'], hx'⟩

theorem buildLesson_inv (env : FetchEnv) (cls : JVal) :
    ∀ l ∈ buildLesson env cls, ∀ kvs, l = JVal.dict kvs → lessonCountInv kvs := by
  cases cls with
  | dict ckvs =>
    rw [buildLesson]
    by_cases hid : pyTruthy (getOrNull ckvs "id") = true
    · simp only [hid, Bool.not_true, Bool.false_eq_true, if_false]
      cases henv : env.lessonResp (pyStr (getOrNull ckvs "id")) with
      | mk data ok =>
        cases ok with
        | true =>
          cases data with
          | none =>
            intro l hl
            cases hl
          | some v =>
            cases v with
            | dict lkvs =>
              intro l hl kvs hkvs
              rw [List.mem_singleton] at hl
              subst hl
              injection hkvs with hkvs
              subst hkvs
              exact ⟨rfl, rfl, rfl⟩
            | null => intro l hl; cases hl
            | bool b => intro l hl; cases hl
            | num m => intro l hl; cases hl
            | str s => intro l hl; cases hl
            | list xs => intro l hl; cases hl
        | false =>
          cases data with
          | none =>
            intro l hl
            cases hl
          | some v =>
            cases v <;> (intro l hl; cases hl)
    · simp only [Bool.not_eq_true] at hid
      simp only [hid, Bool.not_false, if_true]
      intro l hl
      cases hl
  | null => intro l hl; cases hl
  | bool b => intro l hl; cases hl
  | num m => intro l hl; cases hl
  | str s => intro l hl; cases hl
  | list xs => intro l hl; cases hl

/-- The count invariant lifted to a `JVal` (trivial on non-mappings). -/
def lessonCountInvJ : JVal → Prop
  | .dict kvs => lessonCountInv kvs
  | _ => True

instance (kvs : List (String × JVal)) : Decidable (lessonCountInv kvs) :=
  inferInstanceAs (Decidable (_ ∧ _ ∧ _))

instance : (l : JVal) → Decidable (lessonCountInvJ l) := fun l =>
  match l with
  | .dict kvs => inferInstanceAs (Decidable (lessonCountInv kvs))
  | .null => inferInstanceAs (Decidable True)
  | .bool _ => inferInstanceAs (Decidable True)
  | .num _ => inferInstanceAs (Decidable True)
  | .str _ => inferInstanceAs (Decidable True)
  | .list _ => inferInstanceAs (Decidable True)

theorem invJ_of {l : JVal}
    (h : ∀ kvs, l = JVal.dict kvs → lessonCountInv kvs) : lessonCountInvJ l := by
  cases l <;> first
    | trivial
    | exact h _ rfl

theorem inv_of_invJ {l : JVal} (h : lessonCountInvJ l) :
    ∀ kvs, l = JVal.dict kvs → lessonCountInv kvs := by
  intro kvs hk
  subst hk
  exact h

theorem dictGet_setOkFlag_ne (out : List (String × JVal)) (k2 : String) (b : Bool)
    {k : String} (h : k ≠ "_ok") :
    dictGet (setOkFlag out k2 b) k = dictGet out k := by
  rw [setOkFlag]
  cases hok : dictGet out "_ok" with
  | none => rfl
  | some v =>
    cases v <;> first
      | rfl
      | exact dictGet_dictSet_ne _ _ (fun hh => h hh.symm)

theorem dictGet_fetchUpdatesStage_ne (env : FetchEnv) (out : List (String × JVal))
    {k : String} (h : k ≠ "announcements") :
    dictGet (fetchUpdatesStage env out) k = dictGet out k := by
  rw [fetchUpdatesStage]
  by_cases hu : env.updatesResp.2 = true
  · rw [if_pos hu]
    exact dictGet_dictSet_ne _ _ (fun hh => h hh.symm)
  · rw [if_neg hu]

/-- Decomposition of a snapshot: its `lessons` field is a list, the
entity `lesson_count` is the source's sum over exactly that list, and
every lesson in it was produced by `buildLesson`. -/
theorem fetch_decomp (env : FetchEnv) (course : JVal) (rank : Int) (t : String) :
    ∃ lsn : List JVal,
      dictGet (fetch_course_details env course rank t) "lessons" = some (.list lsn) ∧
      dictGet (fetch_course_details env course rank t) "lesson_count" =
        some (.num (lessonsTotal lsn)) ∧
      (∀ l ∈ lsn, ∃ cls, l ∈ buildLesson env cls) := by
  have hcls : ∃ lsn,
      dictGet (fetchClassroomStage env
        (setOkFlag (fetchOut0 course rank t) "classroom" env.classroomResp.2))
        "lessons" = some (.list lsn) ∧
      (∀ l ∈ lsn, ∃ cls, l ∈ buildLesson env cls) := by
    rw [fetchClassroomStage]
    cases h2 : env.classroomResp.2 with
    | true =>
      cases h1 : env.classroomResp.1 with
      | none =>
        refine ⟨[], ?_, by intro l hl; cases hl⟩
        rw [dictGet_setOkFlag_ne _ _ _ (by decide)]
        rfl
      | some v =>
        cases v with
        | dict cdkvs =>
          refine ⟨_, dictGet_dictSet_self _ _ _, ?_⟩
          intro l hl
          rcases mem_foldl_append _ _ _ _ hl with h | ⟨c, _, hc⟩
          · cases h
          · exact ⟨c, hc⟩
        | null =>
          refine ⟨[], ?_, by intro l hl; cases hl⟩
          rw [dictGet_setOkFlag_ne _ _ _ (by decide)]
          rfl
        | bool b =>
          refine ⟨[], ?_, by intro l hl; cases hl⟩
          rw [dictGet_setOkFlag_ne _ _ _ (by decide)]
          rfl
        | num m =>
          refine ⟨[], ?_, by intro l hl; cases hl⟩
          rw [dictGet_setOkFlag_ne _ _ _ (by decide)]
          rfl
        | str s =>
          refine ⟨[], ?_, by intro l hl; cases hl⟩
          rw [dictGet_setOkFlag_ne _ _ _ (by decide)]
          rfl
        | list xs =>
          refine ⟨[], ?_, by intro l hl; cases hl⟩
          rw [dictGet_setOkFlag_ne _ _ _ (by decide)]
          rfl
    | false =>
      refine ⟨[], ?_, by intro l hl; cases hl⟩
      rw [dictGet_setOkFlag_ne _ _ _ (by decide)]
      rfl
  obtain ⟨lsn, hg, hmem⟩ := hcls
  have hout4 : dictGet (fetchUpdatesStage env
      (setOkFlag (fetchClassroomStage env
        (setOkFlag (fetchOut0 course rank t) "classroom" env.classroomResp.2))
        "updates" env.updatesResp.2)) "lessons" = some (.list lsn) := by
    rw [dictGet_fetchUpdatesStage_ne _ _ (by decide),
      dictGet_setOkFlag_ne _ _ _ (by decide), hg]
  have hmatch : (match getD (fetchUpdatesStage env
      (setOkFlag (fetchClassroomStage env
        (setOkFlag (fetchOut0 course rank t) "classroom" env.classroomResp.2))
        "updates" env.updatesResp.2)) "lessons" (.list []) with
      | JVal.list l => l
      | _ => []) = lsn := by
    rw [getD, hout4]
    rfl
  refine ⟨lsn, ?_, ?_, hmem⟩
  · show dictGet (dictSet _ "lesson_count" _) "lessons" = _
    rw [dictGet_dictSet_ne _ _ (by decide), hout4]
  · show dictGet (dictSet _ "lesson_count"
      (.num (lessonsTotal (match getD _ "lessons" (.list []) with
                           | JVal.list l => l
                           | _ => [])))) "lesson_count" = _
    rw [dictGet_dictSet_self, hmatch]

/-- C6.  (a) Every snapshot built by `fetch_course_details` has, for
every lesson record it contains, `video_count` / `note_count` equal to
the lengths of its `videos` / `notes` lists and
`lesson_count = video_count + note_count`; the entity `lesson_count` is
the source's sum over exactly those lessons, which equals the sum of the
list lengths.  (b) `merge_course` with a truthy classroom flag
re-establishes the same invariant on the merged lessons (matched and
appended lessons are recomputed; untouched lessons keep it by
hypothesis) and recomputes the entity `lesson_count` from the merged
list — never carried over stale. -/
theorem counts_invariant :
    (∀ (env : FetchEnv) (course : JVal) (rank : Int) (t : String),
      ∃ lsn : List JVal,
        dictGet (fetch_course_details env course rank t) "lessons" =
          some (.list lsn) ∧
        (∀ l ∈ lsn, lessonCountInvJ l) ∧
        dictGet (fetch_course_details env course rank t) "lesson_count" =
          some (.num (lessonsTotal lsn)) ∧
        lessonsTotal lsn = sumLens lsn) ∧
    (∀ (ex new : List (String × JVal)) (h : JVal → Int) (els nls : List JVal),
      pyTruthy (vGet (okDictOf new) "classroom") = true →
      dictGet ex "lessons" = some (.list els) →
      (∀ p ∈ new, p.1 = "lessons" → isListJ p.2 = true) →
      dictGet new "lessons" = some (.list nls) →
      (∀ x ∈ nls, isDictJ x = true ∧ (sidOf "lesson_id" x).isSome = true) →
      (∀ l ∈ els, lessonCountInvJ l) →
      ∃ merged : List JVal,
        dictGet (merge_course ex new h) "lessons" = some (.list merged) ∧
        (∀ l ∈ merged, lessonCountInvJ l) ∧
        dictGet (merge_course ex new h) "lesson_count" =
          some (.num (lessonsTotal merged)) ∧
        lessonsTotal merged = sumLens merged) := by
  constructor
  · intro env course rank t
    obtain ⟨lsn, h1, h2, h3⟩ := fetch_decomp env course rank t
    have hinv : ∀ l ∈ lsn, ∀ kvs, l = JVal.dict kvs → lessonCountInv kvs := by
      intro l hl kvs hkvs
      obtain ⟨cls, hcls⟩ := h3 l hl
      exact buildLesson_inv env cls l hcls kvs hkvs
    exact ⟨lsn, h1, fun l hl => invJ_of (hinv l hl), h2,
      lessonsTotal_eq_sumLens hinv⟩
  · intro ex new h els nls hco hl hnlall hnlget hnls hinvJ
    have hinv : ∀ l ∈ els, ∀ kvs, l = JVal.dict kvs → lessonCountInv kvs :=
      fun l hl' => inv_of_invJ (hinvJ l hl')
    have hl1 : dictGet (merge_dict_fill_only ex (new.filter (fun p => p.1 != "_ok")))
        "lessons" = some (.list els) :=
      mergeFill_get_list _ ex hl
        (fun v hv => isListJ_exists (hnlall _ (List.mem_filter.mp hv).1 rfl))
    have hl2a : dictGet (dictSet (merge_dict_fill_only ex
        (new.filter (fun p => p.1 != "_ok"))) "classroom"
        (.list (merge_list_by_key
          (getD (merge_dict_fill_only ex (new.filter (fun p => p.1 != "_ok")))
            "classroom" (.list []))
          (getD new "classroom" (.list [])) "id"))) "lessons" = some (.list els) := by
      rw [dictGet_dictSet_ne _ _ (by decide)]
      exact hl1
    have hmatchex : (match getD (dictSet (merge_dict_fill_only ex
        (new.filter (fun p => p.1 != "_ok"))) "classroom"
        (.list (merge_list_by_key
          (getD (merge_dict_fill_only ex (new.filter (fun p => p.1 != "_ok")))
            "classroom" (.list []))
          (getD new "classroom" (.list [])) "id"))) "lessons" (.list []) with
        | JVal.list l => l
        | _ => []) = els := by
      rw [getD, hl2a]
      rfl
    have hmatchnew : (match getD new "lessons" (.list []) with
        | JVal.list l => l
        | _ => []) = nls := by
      rw [getD, hnlget]
      rfl
    refine ⟨(nls.foldl mergeLessonStep (els, buildIndexAux "lesson_id" els 0 [])).1,
      ?_, ?_, ?_, ?_⟩
    · rw [merge_course]
      simp only [hco, if_true]
      rw [hmatchex, hmatchnew]
      by_cases hupd : pyTruthy (vGet (okDictOf new) "updates") = true
      · simp only [hupd, if_true]
        rw [dictGet_dictSet_ne _ _ (by decide), dictGet_dictSet_ne _ _ (by decide),
          dictGet_dictSet_self]
      · simp only [hupd, Bool.false_eq_true, if_false]
        rw [dictGet_dictSet_ne _ _ (by decide), dictGet_dictSet_self]
    · intro l hl'
      exact invJ_of (lessonFold_inv nls _ hnls hinv l hl')
    · rw [merge_course]
      simp only [hco, if_true]
      rw [hmatchex, hmatchnew]
      by_cases hupd : pyTruthy (vGet (okDictOf new) "updates") = true
      · simp only [hupd, if_true]
        rw [dictGet_dictSet_ne _ _ (by decide), dictGet_dictSet_self]
      · simp only [hupd, Bool.false_eq_true, if_false]
        rw [dictGet_dictSet_self]
    · exact lessonsTotal_eq_sumLens (fun l hl' => lessonFold_inv nls _ hnls hinv l hl')

/-- Witness for C6(b): merging one snapshot lesson into a persisted
record with one matching lesson recomputes all counts. -/
theorem counts_invariant_witness :
    ∃ merged : List JVal,
      dictGet (merge_course
        [("lessons", .list [.dict
          [("lesson_id", .str "L1"), ("video_count", .num 1), ("note_count", .num 0),
           ("lesson_count", .num 1), ("videos", .list [.dict [("id", .str "v1")]]),
           ("notes", .list [])]]), ("lesson_count", .num 1)]
        [("lessons", .list [.dict
          [("lesson_id", .str "L1"), ("videos", .list [.dict [("id", .str "v2")]]),
           ("notes", .list [])]]),
         ("_ok", .dict [("classroom", .bool true), ("updates", .bool false)])]
        (fun _ => 0)) "lessons" = some (.list merged) ∧
      (∀ l ∈ merged, lessonCountInvJ l) ∧
      dictGet (merge_course
        [("lessons", .list [.dict
          [("lesson_id", .str "L1"), ("video_count", .num 1), ("note_count", .num 0),
           ("lesson_count", .num 1), ("videos", .list [.dict [("id", .str "v1")]]),
           ("notes", .list [])]]), ("lesson_count", .num 1)]
        [("lessons", .list [.dict
          [("lesson_id", .str "L1"), ("videos", .list [.dict [("id", .str "v2")]]),
           ("notes", .list [])]]),
         ("_ok", .dict [("classroom", .bool true), ("updates", .bool false)])]
        (fun _ => 0)) "lesson_count" = some (.num (lessonsTotal merged)) ∧
      lessonsTotal merged = sumLens merged :=
  counts_invariant.2
    [("lessons", .list [.dict
      [("lesson_id", .str "L1"), ("video_count", .num 1), ("note_count", .num 0),
       ("lesson_count", .num 1), ("videos", .list [.dict [("id", .str "v1")]]),
       ("notes", .list [])]]), ("lesson_count", .num 1)]
    [("lessons", .list [.dict
      [("lesson_id", .str "L1"), ("videos", .list [.dict [("id", .str "v2")]]),
       ("notes", .list [])]]),
     ("_ok", .dict [("classroom", .bool true), ("updates", .bool false)])]
    (fun _ => 0)
    [.dict [("lesson_id", .str "L1"), ("video_count", .num 1), ("note_count", .num 0),
            ("lesson_count", .num 1), ("videos", .list [.dict [("id", .str "v1")]]),
            ("notes", .list [])]]
    [.dict [("lesson_id", .str "L1"), ("videos", .list [.dict [("id", .str "v2")]]),
            ("notes", .list [])]]
    (by decide) (by decide) (by decide) (by decide) (by decide) (by decide)

/-! ### C5: identifier canonicalisation -/

theorem dictGet_fetchClassroomStage_ne (env : FetchEnv)
    (out : List (String × JVal)) {k : String}
    (h1 : k ≠ "classroom") (h2 : k ≠ "lessons") :
    dictGet (fetchClassroomStage env out) k = dictGet out k := by
  rw [fetchClassroomStage]
  cases env.classroomResp.2 with
  | true =>
    cases env.classroomResp.1 with
    | none => rfl
    | some v =>
      cases v <;> first
        | rfl
        | rw [dictGet_dictSet_ne _ _ (fun hh => h2 hh.symm),
            dictGet_dictSet_ne _ _ (fun hh => h1 hh.symm)]
  | false => rfl

theorem buildVideo_id (env : FetchEnv) (v : List (String × JVal)) :
    dictGet (buildVideo env v) "id" =
      some (if getOrNull v "id" = .null then .null
            else .str (pyStr (getOrNull v "id"))) := rfl

theorem buildNote_id (env : FetchEnv) (n : List (String × JVal)) :
    dictGet (buildNote env n) "id" =
      some (if getOrNull n "id" = .null then .null
            else .str (pyStr (getOrNull n "id"))) := rfl

theorem lessonVideosOf_shape (env : FetchEnv) (lkvs : List (String × JVal)) :
    ∀ v ∈ lessonVideosOf env lkvs, ∃ vkvs, v = JVal.dict vkvs ∧
      (dictGet vkvs "id" = some .null ∨ ∃ s, dictGet vkvs "id" = some (.str s)) := by
  intro v hv
  obtain ⟨a, _, ha⟩ := List.mem_filterMap.mp hv
  cases a with
  | dict akvs =>
    injection ha with ha
    subst ha
    refine ⟨buildVideo env akvs, rfl, ?_⟩
    by_cases hvid : getOrNull akvs "id" = .null
    · exact Or.inl (by rw [buildVideo_id, if_pos hvid])
    · exact Or.inr ⟨pyStr (getOrNull akvs "id"), by rw [buildVideo_id, if_neg hvid]⟩
  | null => cases ha
  | bool b => cases ha
  | num m => cases ha
  | str s => cases ha
  | list xs => cases ha

theorem lessonNotesOf_shape (env : FetchEnv) (lkvs : List (String × JVal)) :
    ∀ nv ∈ lessonNotesOf env lkvs, ∃ nkvs, nv = JVal.dict nkvs ∧
      (dictGet nkvs "id" = some .null ∨ ∃ s, dictGet nkvs "id" = some (.str s)) := by
  intro nv hnv
  obtain ⟨a, _, ha⟩ := List.mem_filterMap.mp hnv
  cases a with
  | dict akvs =>
    injection ha with ha
    subst ha
    refine ⟨buildNote env akvs, rfl, ?_⟩
    by_cases hnid : getOrNull akvs "id" = .null
    · exact Or.inl (by rw [buildNote_id, if_pos hnid])
    · exact Or.inr ⟨pyStr (getOrNull akvs "id"), by rw [buildNote_id, if_neg hnid]⟩
  | null => cases ha
  | bool b => cases ha
  | num m => cases ha
  | str s => cases ha
  | list xs => cases ha

theorem buildLessonRecord_idshape (env : FetchEnv) (ckvs lkvs : List (String × JVal)) :
    (∃ s, dictGet (buildLessonRecord env ckvs lkvs) "lesson_id" = some (.str s)) ∧
    (∀ vs, dictGet (buildLessonRecord env ckvs lkvs) "videos" = some (.list vs) →
      ∀ v ∈ vs, ∃ vkvs, v = JVal.dict vkvs ∧
        (dictGet vkvs "id" = some .null ∨ ∃ s, dictGet vkvs "id" = some (.str s))) ∧
    (∀ ns, dictGet (buildLessonRecord env ckvs lkvs) "notes" = some (.list ns) →
      ∀ nv ∈ ns, ∃ nkvs, nv = JVal.dict nkvs ∧
        (dictGet nkvs "id" = some .null ∨ ∃ s, dictGet nkvs "id" = some (.str s))) := by
  have hid : dictGet (buildLessonRecord env ckvs lkvs) "lesson_id" =
      some (if getOrNull lkvs "id" = .null then .str (pyStr (getOrNull ckvs "id"))
            else .str (pyStr (getOrNull lkvs "id"))) := rfl
  have hvids : dictGet (buildLessonRecord env ckvs lkvs) "videos" =
      some (.list (lessonVideosOf env lkvs)) := rfl
  have hnotes : dictGet (buildLessonRecord env ckvs lkvs) "notes" =
      some (.list (lessonNotesOf env lkvs)) := rfl
  refine ⟨?_, ?_, ?_⟩
  · by_cases hlid : getOrNull lkvs "id" = .null
    · exact ⟨pyStr (getOrNull ckvs "id"), by rw [hid, if_pos hlid]⟩
    · exact ⟨pyStr (getOrNull lkvs "id"), by rw [hid, if_neg hlid]⟩
  · intro vs hvs
    rw [hvids] at hvs
    injection hvs with hvs
    injection hvs with hvs
    rw [← hvs]
    exact lessonVideosOf_shape env lkvs
  · intro ns hns
    rw [hnotes] at hns
    injection hns with hns
    injection hns with hns
    rw [← hns]
    exact lessonNotesOf_shape env lkvs

theorem buildLesson_idshape (env : FetchEnv) (cls : JVal) :
    ∀ l ∈ buildLesson env cls, ∃ kvs, l = JVal.dict kvs ∧
      (∃ s, dictGet kvs "lesson_id" = some (.str s)) ∧
      (∀ vs, dictGet kvs "videos" = some (.list vs) → ∀ v ∈ vs,
        ∃ vkvs, v = JVal.dict vkvs ∧
          (dictGet vkvs "id" = some .null ∨ ∃ s, dictGet vkvs "id" = some (.str s))) ∧
      (∀ ns, dictGet kvs "notes" = some (.list ns) → ∀ nv ∈ ns,
        ∃ nkvs, nv = JVal.dict nkvs ∧
          (dictGet nkvs "id" = some .null ∨ ∃ s, dictGet nkvs "id" = some (.str s))) := by
  cases cls with
  | dict ckvs =>
    rw [buildLesson]
    by_cases hid : pyTruthy (getOrNull ckvs "id") = true
    · simp only [hid, Bool.not_true, Bool.false_eq_true, if_false]
      cases henv : env.lessonResp (pyStr (getOrNull ckvs "id")) with
      | mk data ok =>
        cases ok with
        | true =>
          cases data with
          | none => intro l hl; cases hl
          | some v =>
            cases v with
            | dict lkvs =>
              intro l hl
              rw [List.mem_singleton] at hl
              subst hl
              exact ⟨buildLessonRecord env ckvs lkvs, rfl,
                buildLessonRecord_idshape env ckvs lkvs⟩
            | null => intro l hl; cases hl
            | bool b => intro l hl; cases hl
            | num m => intro l hl; cases hl
            | str s => intro l hl; cases hl
            | list xs => intro l hl; cases hl
        | false =>
          cases data with
          | none => intro l hl; cases hl
          | some v => cases v <;> (intro l hl; cases hl)
    · simp only [Bool.not_eq_true] at hid
      simp only [hid, Bool.not_false, if_true]
      intro l hl
      cases hl
  | null => intro l hl; cases hl
  | bool b => intro l hl; cases hl
  | num m => intro l hl; cases hl
  | str s => intro l hl; cases hl
  | list xs => intro l hl; cases hl

/-- C5 counterexample.  A classroom entry and an announcement item are
stored exactly as fetched: their numeric `id`s (101 and 7) stay numbers
in the persisted snapshot, not canonical strings — refuting the claim
that *every* list-item identifier, including classroom entries and
announcement items, is stored as a canonical string. -/
theorem fetch_keeps_source_id_types :
    dictGet (fetch_course_details
      { classroomResp := (some (.dict [("classroom", .list [.dict [("id", .num 101)]])]), true)
        lessonResp := fun _ => (none, false)
        videoResp := fun _ => (none, false)
        updatesResp := (some (.list [.dict [("id", .num 7)]]), true) }
      (.dict [("id", .num 5)]) 1 "T") "classroom" =
      some (.list [.dict [("id", .num 101)]]) ∧
    dictGet (fetch_course_details
      { classroomResp := (some (.dict [("classroom", .list [.dict [("id", .num 101)]])]), true)
        lessonResp := fun _ => (none, false)
        videoResp := fun _ => (none, false)
        updatesResp := (some (.list [.dict [("id", .num 7)]]), true) }
      (.dict [("id", .num 5)]) 1 "T") "announcements" =
      some (.list [.dict [("id", .num 7)]]) ∧
    JVal.num 101 ≠ JVal.str (pyStr (.num 101)) := by
  refine ⟨rfl, rfl, by decide⟩

/-- C5 as amended.  The identifiers the resolver itself constructs are
canonical strings: the snapshot `course_id` is a string (or `None` when
the source id is missing), every built lesson's `lesson_id` is a string,
and every built video/note item's `id` is a string or `None`; the store
loader canonicalises every record's non-`None` `course_id` to a string.
Classroom entries and announcement items, by contrast, are stored as
fetched (their ids keep the source type); canonical strings are used for
them only as merge-index keys. -/
theorem canonical_id_fields :
    (∀ (env : FetchEnv) (course : JVal) (rank : Int) (t : String),
      (dictGet (fetch_course_details env course rank t) "course_id" = some .null ∨
       ∃ s, dictGet (fetch_course_details env course rank t) "course_id" =
         some (.str s)) ∧
      ∃ lsn, dictGet (fetch_course_details env course rank t) "lessons" =
          some (.list lsn) ∧
        ∀ l ∈ lsn, ∃ kvs, l = JVal.dict kvs ∧
          (∃ s, dictGet kvs "lesson_id" = some (.str s)) ∧
          (∀ vs, dictGet kvs "videos" = some (.list vs) → ∀ v ∈ vs,
            ∃ vkvs, v = JVal.dict vkvs ∧
              (dictGet vkvs "id" = some .null ∨
               ∃ s, dictGet vkvs "id" = some (.str s))) ∧
          (∀ ns, dictGet kvs "notes" = some (.list ns) → ∀ nv ∈ ns,
            ∃ nkvs, nv = JVal.dict nkvs ∧
              (dictGet nkvs "id" = some .null ∨
               ∃ s, dictGet nkvs "id" = some (.str s)))) ∧
    (∀ (data : JVal) (cs : List JVal), canonicalize_master data = .ok cs →
      ∀ c ∈ cs, ∀ kvs, c = JVal.dict kvs →
        dictGet kvs "course_id" = none ∨ dictGet kvs "course_id" = some .null ∨
        ∃ s, dictGet kvs "course_id" = some (.str s)) := by
  constructor
  · intro env course rank t
    constructor
    · have hbase : dictGet (fetch_course_details env course rank t) "course_id" =
          some (if vGet course "id" = .null then .null
                else .str (pyStr (vGet course "id"))) := by
        show dictGet (dictSet _ "lesson_count" _) "course_id" = _
        rw [dictGet_dictSet_ne _ _ (by decide),
          dictGet_fetchUpdatesStage_ne _ _ (by decide),
          dictGet_setOkFlag_ne _ _ _ (by decide),
          dictGet_fetchClassroomStage_ne _ _ (by decide) (by decide),
          dictGet_setOkFlag_ne _ _ _ (by decide)]
        rfl
      by_cases hcid : vGet course "id" = .null
      · exact Or.inl (by rw [hbase, if_pos hcid])
      · exact Or.inr ⟨pyStr (vGet course "id"), by rw [hbase, if_neg hcid]⟩
    · obtain ⟨lsn, h1, _, h3⟩ := fetch_decomp env course rank t
      refine ⟨lsn, h1, fun l hl => ?_⟩
      obtain ⟨cls, hcls⟩ := h3 l hl
      exact buildLesson_idshape env cls l hcls
  · intro data cs hok c hc kvs hkvs
    cases data with
    | list ds =>
      rw [canonicalize_master] at hok
      injection hok with hok
      subst hok
      obtain ⟨d, _, hd⟩ := List.mem_map.mp hc
      cases d with
      | dict dkvs =>
        have hd' : (if getOrNull dkvs "course_id" = JVal.null then JVal.dict dkvs
            else JVal.dict (dictSet dkvs "course_id"
              (.str (pyStr (getOrNull dkvs "course_id"))))) = c := hd
        by_cases hnull : getOrNull dkvs "course_id" = .null
        · rw [if_pos hnull] at hd'
          rw [← hd'] at hkvs
          injection hkvs with hkvs
          subst hkvs
          rw [getOrNull] at hnull
          cases hg : dictGet dkvs "course_id" with
          | none => exact Or.inl rfl
          | some v =>
            rw [hg] at hnull
            have hv : v = JVal.null := hnull
            exact Or.inr (Or.inl (by rw [hv]))
        · rw [if_neg hnull] at hd'
          rw [← hd'] at hkvs
          injection hkvs with hkvs
          subst hkvs
          exact Or.inr (Or.inr ⟨pyStr (getOrNull dkvs "course_id"),
            dictGet_dictSet_self _ _ _⟩)
      | null =>
        have hd' : JVal.null = c := hd
        rw [← hd'] at hkvs
        cases hkvs
      | bool b =>
        have hd' : JVal.bool b = c := hd
        rw [← hd'] at hkvs
        cases hkvs
      | num m =>
        have hd' : JVal.num m = c := hd
        rw [← hd'] at hkvs
        cases hkvs
      | str st =>
        have hd' : JVal.str st = c := hd
        rw [← hd'] at hkvs
        cases hkvs
      | list xs =>
        have hd' : JVal.list xs = c := hd
        rw [← hd'] at hkvs
        cases hkvs
    | null => cases hok
    | bool b => cases hok
    | num m => cases hok
    | str s => cases hok
    | dict kvs2 => cases hok

/-- Witness for the amended C5: the loader canonicalises a numeric
`course_id` to the string `"7"`. -/
theorem canonical_id_fields_witness :
    dictGet [("course_id", .str "7")] "course_id" = none ∨
    dictGet [("course_id", .str "7")] "course_id" = some .null ∨
    ∃ s, dictGet [("course_id", .str "7")] "course_id" = some (.str s) :=
  canonical_id_fields.2 (.list [.dict [("course_id", .num 7)]])
    [.dict [("course_id", .str "7")]] (by rfl)
    (.dict [("course_id", .str "7")]) (by simp)
    [("course_id", .str "7")] rfl

/-- Witness for the amended C4 at a concrete distinct-key list. -/
theorem merge_list_by_key_self_ident_witness :
    merge_list_by_key
      (.list [.dict [("id", .str "1"), ("a", .str "x")],
              .dict [("id", .str "2")], .num 3])
      (.list [.dict [("id", .str "1"), ("a", .str "x")],
              .dict [("id", .str "2")], .num 3]) "id" =
      [.dict [("id", .str "1"), ("a", .str "x")],
       .dict [("id", .str "2")], .num 3] :=
  (merge_list_by_key_self_ident
    [.dict [("id", .str "1"), ("a", .str "x")], .dict [("id", .str "2")], .num 3]
    "id" (by decide) (by decide)).1

/-! ### C10: the keyed list merge never deletes or reorders -/

/-- `Enriched a b`: `b` is the very item `a` after zero or more in-place
fill-only merges — the functional image of Python mutating one dict
object in place.  Non-dict items are never merged, so for them
`Enriched a b` forces `b = a`. -/
inductive Enriched : JVal → JVal → Prop where
  | refl (a : JVal) : Enriched a a
  | fill (d : JVal) {a b : JVal} : Enriched a b → Enriched a (jMergeDictFill b d)

theorem forall₂_enriched_refl : ∀ l : List JVal, List.Forall₂ Enriched l l := by
  intro l
  induction l with
  | nil => exact .nil
  | cons x xs ih => exact .cons (.refl x) ih

theorem forall₂_append_both {α β : Type} {R : α → β → Prop} :
    ∀ {a c : List α} {b d : List β}, List.Forall₂ R a b → List.Forall₂ R c d →
    List.Forall₂ R (a ++ c) (b ++ d) := by
  intro a
  induction a with
  | nil =>
    intro c b d hab hcd
    cases hab
    exact hcd
  | cons x xs ih =>
    intro c b d hab hcd
    cases hab with
    | cons hx htail => exact .cons hx (ih htail hcd)

theorem forall₂_append_split {α β : Type} {R : α → β → Prop} :
    ∀ {l₁ l₂ : List α} {m : List β}, List.Forall₂ R (l₁ ++ l₂) m →
    ∃ m₁ m₂, m = m₁ ++ m₂ ∧ List.Forall₂ R l₁ m₁ ∧ List.Forall₂ R l₂ m₂ := by
  intro l₁
  induction l₁ with
  | nil =>
    intro l₂ m h
    exact ⟨[], m, rfl, .nil, h⟩
  | cons x xs ih =>
    intro l₂ m h
    cases h with
    | cons hx htail =>
      obtain ⟨m₁, m₂, rfl, h₁, h₂⟩ := ih htail
      exact ⟨_ :: m₁, m₂, rfl, .cons hx h₁, h₂⟩

theorem forall₂_enriched_set :
    ∀ {base cur : List JVal}, List.Forall₂ Enriched base cur →
    ∀ (j : Nat) (d : JVal),
    List.Forall₂ Enriched base (cur.set j (jMergeDictFill (cur.getD j .null) d)) := by
  intro base cur h
  induction h with
  | nil =>
    intro j d
    cases j <;> exact .nil
  | cons ha htail ih =>
    intro j d
    cases j with
    | zero => exact .cons (.fill d ha) htail
    | succ j' => exact .cons ha (ih j' d)

theorem mergeKeyStep_cases (key : String) (st : List JVal × List (String × Nat))
    (x : JVal) :
    (mergeKeyStep key st x).1 = st.1 ∨
    (∃ j, (mergeKeyStep key st x).1 =
      st.1.set j (jMergeDictFill (st.1.getD j .null) x)) ∨
    (mergeKeyStep key st x).1 = st.1 ++ [x] := by
  cases x with
  | dict kvs =>
    cases hsid : sidOf key (.dict kvs) with
    | none =>
      by_cases hc : st.1.contains (JVal.dict kvs) = true
      · exact Or.inl (by simp only [mergeKeyStep, hsid, hc, if_true])
      · refine Or.inr (Or.inr ?_)
        simp only [mergeKeyStep, hsid, hc, Bool.false_eq_true, if_false]
    | some sid =>
      cases hj : assocGet st.2 sid with
      | some j => exact Or.inr (Or.inl ⟨j, by simp only [mergeKeyStep, hsid, hj]⟩)
      | none => exact Or.inr (Or.inr (by simp only [mergeKeyStep, hsid, hj]))
  | null =>
    by_cases hc : st.1.contains JVal.null = true
    · exact Or.inl (by simp only [mergeKeyStep, hc, if_true])
    · exact Or.inr (Or.inr (by simp only [mergeKeyStep, hc, Bool.false_eq_true, if_false]))
  | bool b =>
    by_cases hc : st.1.contains (JVal.bool b) = true
    · exact Or.inl (by simp only [mergeKeyStep, hc, if_true])
    · exact Or.inr (Or.inr (by simp only [mergeKeyStep, hc, Bool.false_eq_true, if_false]))
  | num m =>
    by_cases hc : st.1.contains (JVal.num m) = true
    · exact Or.inl (by simp only [mergeKeyStep, hc, if_true])
    · exact Or.inr (Or.inr (by simp only [mergeKeyStep, hc, Bool.false_eq_true, if_false]))
  | str s =>
    by_cases hc : st.1.contains (JVal.str s) = true
    · exact Or.inl (by simp only [mergeKeyStep, hc, if_true])
    · exact Or.inr (Or.inr (by simp only [mergeKeyStep, hc, Bool.false_eq_true, if_false]))
  | list xs =>
    by_cases hc : st.1.contains (JVal.list xs) = true
    · exact Or.inl (by simp only [mergeKeyStep, hc, if_true])
    · exact Or.inr (Or.inr (by simp only [mergeKeyStep, hc, Bool.false_eq_true, if_false]))

theorem mergeKey_fold_enriched (key : String) :
    ∀ (rest : List JVal) (base cur : List JVal) (idx : List (String × Nat)),
    List.Forall₂ Enriched base cur →
    ∃ sub', sub'.Sublist rest ∧
      List.Forall₂ Enriched (base ++ sub')
        ((rest.foldl (mergeKeyStep key) (cur, idx)).1) := by
  intro rest
  induction rest with
  | nil =>
    intro base cur idx h
    exact ⟨[], List.nil_sublist _, by simpa using h⟩
  | cons x rest' ih =>
    intro base cur idx h
    have hfold : ((x :: rest').foldl (mergeKeyStep key) (cur, idx)).1 =
        (rest'.foldl (mergeKeyStep key)
          ((mergeKeyStep key (cur, idx) x).1, (mergeKeyStep key (cur, idx) x).2)).1 :=
      rfl
    rw [hfold]
    rcases mergeKeyStep_cases key (cur, idx) x with hcase | ⟨j, hcase⟩ | hcase
    · rw [hcase]
      obtain ⟨sub', hs, hf⟩ := ih base cur _ h
      exact ⟨sub', hs.cons x, hf⟩
    · rw [hcase]
      obtain ⟨sub', hs, hf⟩ := ih base _ _ (forall₂_enriched_set h j x)
      exact ⟨sub', hs.cons x, hf⟩
    · rw [hcase]
      obtain ⟨sub', hs, hf⟩ := ih (base ++ [x]) (cur ++ [x]) _
        (forall₂_append_both h (.cons (.refl x) .nil))
      refine ⟨x :: sub', List.Sublist.cons₂ x hs, ?_⟩
      have : base ++ [x] ++ sub' = base ++ x :: sub' := by
        rw [List.append_assoc]
        rfl
      rwa [this] at hf

/-- C10.  The keyed list merge never deletes or reorders existing
content: the result is the existing list, item for item in place (each
item either untouched or — for mappings matched by key — the same item
enriched in place by fill-only merges, as the source mutates the same
dict object), followed by the appended new items in the order they
first occur in the new list (each possibly enriched in place by later
same-key occurrences); every appended entry originates from an item of
the new list, order-preserved (a sublist). -/
theorem merge_list_by_key_append_only (ex nl : List JVal) (key : String) :
    ∃ ex' app sub, merge_list_by_key (.list ex) (.list nl) key = ex' ++ app ∧
      List.Forall₂ Enriched ex ex' ∧ sub.Sublist nl ∧
      List.Forall₂ Enriched sub app := by
  obtain ⟨sub, hs, hf⟩ := mergeKey_fold_enriched key nl ex ex
    (buildIndexAux key ex 0 []) (forall₂_enriched_refl ex)
  obtain ⟨ex', app, heq, h1, h2⟩ := forall₂_append_split hf
  exact ⟨ex', app, sub, heq, h1, hs, h2⟩

end Script
